import Mathlib

/-!
Verification development for the `haags` translator (`haags.py`).

The Python source is shallowly embedded: strings are Lean `String`s
(`String.data : List Char` in this toolchain), each Python function becomes
an executable Lean definition of the same name, and the few Python `assert`
statements that can fire at run time are modelled with `Option`.

Unicode notes, used consistently throughout:
  * Python's `str.upper` / `str.lower` / `str.title` / `str.isupper` /
    `str.isalpha` are modelled characterwise over the alphabet the program
    actually manipulates: ASCII plus the accented Latin-1 letters appearing
    in the source (è é ë ï ü â ù ç) and the ĳ/Ĳ ligature used by the case
    hack.  Characters outside that set are treated as uncased non-letters.
  * The regex classes `\s`, `\d` and `\w` are modelled over the same
    alphabet (`\s` as the six ASCII whitespace characters, `\d` as the
    ASCII digits, `\w` as letters, digits and the underscore).
-/

/-- Lowercase accented letters with their uppercase forms, as Python's
`str.lower`/`str.upper` map them (the set used by `haags.py`). -/
def accentPairs : List (Char × Char) :=
  [('è', 'È'), ('é', 'É'), ('ë', 'Ë'), ('ï', 'Ï'), ('ü', 'Ü'),
   ('â', 'Â'), ('ù', 'Ù'), ('ç', 'Ç'), ('ĳ', 'Ĳ')]

/-- Characterwise model of Python `str.lower`. -/
def pyLowerChar (c : Char) : Char :=
  match (accentPairs.find? fun p => p.2 = c) with
  | some p => p.1
  | none => c.toLower

/-- Characterwise model of Python `str.upper` (and of `str.title` on a
character in title position: for this alphabet titlecase equals uppercase,
including Ĳ whose titlecase is Ĳ itself). -/
def pyUpperChar (c : Char) : Char :=
  match (accentPairs.find? fun p => p.1 = c) with
  | some p => p.2
  | none => c.toUpper

/-- Model of Python's "cased character" property on this alphabet. -/
def isCasedChar (c : Char) : Bool :=
  c.isAlpha || (accentPairs.any fun p => p.1 = c || p.2 = c)

/-- Model of Python `str.isupper` on a single character. -/
def isUpperChar (c : Char) : Bool :=
  isCasedChar c && pyLowerChar c ≠ c

/-- Python `s.lower()`. -/
def pyLower (s : String) : String := ⟨s.data.map pyLowerChar⟩

/-- Python `s.upper()`. -/
def pyUpper (s : String) : String := ⟨s.data.map pyUpperChar⟩

/-- One step of Python `str.title`: `prevCased` tells whether the previous
character was cased; a cased character after an uncased one is titlecased,
any other character is lowercased. -/
def pyTitleAux : Bool → List Char → List Char
  | _, [] => []
  | prevCased, c :: cs =>
    (if prevCased then pyLowerChar c else pyUpperChar c) :: pyTitleAux (isCasedChar c) cs

/-- Python `s.title()`. -/
def pyTitle (s : String) : String := ⟨pyTitleAux false s.data⟩

/-- Replace every (non-overlapping, leftmost-first) occurrence of the
nonempty pattern `p :: pt` by `rep`, as Python `str.replace` does.  The
fuel argument (called with the list's length) only forces termination:
every step consumes at least one character, so fuel never runs out. -/
def replaceSub (p : Char) (pt rep : List Char) : Nat → List Char → List Char
  | _, [] => []
  | 0, l => l
  | fuel + 1, c :: cs =>
    if (p :: pt).isPrefixOf (c :: cs) then
      rep ++ replaceSub p pt rep fuel (cs.drop pt.length)
    else
      c :: replaceSub p pt rep fuel cs

/-- Python `s.replace(pat, rep)` (the empty-pattern case never occurs in the
source). -/
def replaceStr (pat rep s : String) : String :=
  match pat.data with
  | [] => s
  | p :: pt => ⟨replaceSub p pt rep.data s.data.length s.data⟩

/-- `apply_case_hack` from the source: substitute the ĳ/Ĳ ligature for the
two-letter digraph before case analysis. -/
def apply_case_hack (s : String) : String :=
  replaceStr "IJ" "Ĳ" (replaceStr "ij" "ĳ" s)

/-- `undo_case_hack` from the source. -/
def undo_case_hack (s : String) : String :=
  replaceStr "Ĳ" "IJ" (replaceStr "ĳ" "ij" s)

/-- The five letter-case categories of `detect_case`. -/
inductive Case where
  | lower
  | upper
  | sentence
  | title
  | other
deriving DecidableEq, Repr

/-- `detect_case` from the source. -/
def detect_case (s : String) : Case :=
  let s := apply_case_hack s
  if s = "" then Case.other
  else if s = pyUpper s then Case.upper
  else if s = pyLower s then Case.lower
  else if (s.data.headD ' ' |> isUpperChar) ∧ (⟨s.data.tail⟩ : String) = pyLower ⟨s.data.tail⟩ then
    Case.sentence
  else if s = pyTitle s then Case.title
  else Case.other

/-- `recase` from the source.  The `other` case falls through all branches,
leaving the string unchanged (the case hack is applied and undone). -/
def recase (s : String) (case : Case) : String :=
  let s := apply_case_hack s
  let s :=
    match case with
    | Case.lower => pyLower s
    | Case.upper => pyUpper s
    | Case.sentence => ⟨(s.data.take 1).map pyUpperChar ++ (s.data.drop 1).map pyLowerChar⟩
    | Case.title => pyTitle s
    | Case.other => s
  undo_case_hack s

/-- `recase` as called with a token's possibly-absent case: Python stores
`None` on non-word tokens, and `recase(s, None)` matches no branch, behaving
exactly like `recase(s, "other")`. -/
def recaseOpt (s : String) (case : Option Case) : String :=
  recase s (case.getD Case.other)

/-!
Tokenisation.  The four regexes of the source are modelled as matchers that,
applied at a position (i.e. to the remaining character list), return the
length of the match there or `none`, reproducing the leftmost/greedy
backtracking semantics of Python's `re.match`.
-/

/-- The regex class `\s` (ASCII part; see the header note). -/
def isSpaceChar (c : Char) : Bool :=
  c = ' ' || c = '\t' || c = '\n' || c = '\x0d' || c = '\x0b' || c = '\x0c'

/-- The regex class `\d`. -/
def isDigitChar (c : Char) : Bool := c.isDigit

/-- A letter of the program's alphabet (Python `str.isalpha` on it). -/
def isAlphaChar (c : Char) : Bool :=
  c.isAlpha || (accentPairs.any fun p => p.1 = c || p.2 = c)

/-- The regex class `\w`: letters, digits and the underscore. -/
def isWordChar (c : Char) : Bool :=
  isAlphaChar c || isDigitChar c || c = '_'

/-- `PUNCTUATION_CHARS` from the source. -/
def PUNCTUATION_CHARS : List Char :=
  [ '.', '?', '!',
    ',', ':', ';', '-',
    '"', '\'', '“', '”', '‘', '’', '„', '‚',
    '&', '/' ]

def isPunctChar (c : Char) : Bool := PUNCTUATION_CHARS.contains c

/-- `WHITESPACE_RE` = `(\s+)` applied at a position: the length of the
(maximal, nonempty) whitespace run starting there. -/
def matchWhitespaceLen (cs : List Char) : Option Nat :=
  let n := (cs.takeWhile isSpaceChar).length
  if n = 0 then none else some n

/-- `PUNCTUATION_RE` = one or more punctuation characters. -/
def matchPunctLen (cs : List Char) : Option Nat :=
  let n := (cs.takeWhile isPunctChar).length
  if n = 0 then none else some n

/-- Length of the digit run at the front. -/
def digitRunLen (cs : List Char) : Nat := (cs.takeWhile isDigitChar).length

/-- Inner loop of `starCand` below, abstracted over the continuation for
the rest of the star: try an iteration whose `\d+` takes `j` characters,
for `j` from the digit-run length down to `1`. -/
def starCandJWith (f : List Char → List Nat) : Nat → List Char → List Nat
  | 0, _ => []
  | j + 1, rest =>
    ((f (rest.drop (j + 1))).map fun t => 1 + (j + 1) + t)
      ++ starCandJWith f j rest

/-- Candidate lengths consumed by `(?:[,.]\d+)*` at the front of the list,
in the order a backtracking engine tries them: as many iterations as
possible first, the inner `\d+` longest first, the empty iteration count
last.  The fuel argument (always called with `fuel ≥ cs.length`) only
forces termination; every real iteration consumes at least two
characters. -/
def starCand : Nat → List Char → List Nat
  | 0, _ => [0]
  | _ + 1, [] => [0]
  | fuel + 1, c :: rest =>
    if c = ',' || c = '.' then starCandJWith (starCand fuel) (digitRunLen rest) rest ++ [0]
    else [0]

/-- The negative lookahead `(?!\w\s)` holds after consuming `n` characters
of `cs`. -/
def numberLookaheadOk (cs : List Char) (n : Nat) : Bool :=
  match cs.drop n with
  | c1 :: c2 :: _ => !(isWordChar c1 && isSpaceChar c2)
  | _ => true

/-- `NUMBER_RE` = `(\d+(?:[,.]\d+)*)(?!\w\s)` applied at a position.  The
leading `\d+` (taking `a` characters, longest first) and the separator
groups backtrack in engine order; the first candidate end position whose
lookahead succeeds wins. -/
def matchNumberLen (cs : List Char) : Option Nat :=
  let k := digitRunLen cs
  if k = 0 then none
  else
    let candidates :=
      ((List.range k).map fun idx => k - idx).flatMap fun a =>
        (starCand cs.length (cs.drop a)).map fun t => a + t
    candidates.find? fun n => numberLookaheadOk cs n

/-- The word-boundary assertion `\b` after consuming `a ≥ 1` characters of
`cs`: the word-ness of the character before position `a` differs from the
word-ness of the character at `a` (absent characters are not word
characters). -/
def wordBoundaryAt (cs : List Char) (a : Nat) : Bool :=
  let prev := (cs.take a).getLastD ' '
  let next :=
    match cs.drop a with
    | c :: _ => isWordChar c
    | [] => false
  isWordChar prev != next

/-- `WORD_RE` = `([\w-]+|'[nrt])\b` applied at a position.  The first
alternative is a greedy `[\w-]+` backtracking to the longest prefix length
with a word boundary after it; when its first character already fails, the
shorthand alternative `'[nrt]` is tried, with the same trailing boundary. -/
def matchWordLen (cs : List Char) : Option Nat :=
  let k := (cs.takeWhile fun c => isWordChar c || c = '-').length
  if k ≠ 0 then
    ((List.range k).map fun idx => k - idx).find? fun a => wordBoundaryAt cs a
  else
    match cs with
    | '\'' :: c :: rest =>
      if (c = 'n' || c = 'r' || c = 't') && wordBoundaryAt ('\'' :: c :: rest) 2 then
        some 2
      else none
    | _ => none

/-- `is_regular_word` from the source. -/
def is_regular_word (s : String) : Bool :=
  if s = "'t" || s = "'n" then true
  else s ≠ "" && s.data.all isAlphaChar

/-- `Token.TYPES` from the source. -/
inductive TokenType where
  | word
  | whitespace
  | punctuation
  | number
  | other
  | translated
deriving DecidableEq, Repr

/-- A `Token` as built by the source's `Token.__init__`: `value_lower` is
the cached lowercase form, `case` is detected for word tokens only. -/
structure Token where
  value : String
  type : TokenType
  case : Option Case
  value_lower : String
deriving DecidableEq, Repr

/-- `Token(value, type)`: the constructor logic of the source. -/
def mkToken (value : String) (type : TokenType) : Token :=
  { value := value
    type := type
    case := if type = TokenType.word then some (detect_case value) else none
    value_lower := pyLower value }

/-- `WHITESPACE_TOKEN` from the source. -/
def WHITESPACE_TOKEN : Token := mkToken " " TokenType.whitespace

/-- The ordered matcher list of `tokenize`: whitespace, number, word,
punctuation; the first that matches at the current position wins. -/
def tryMatchers (cs : List Char) : Option (Nat × TokenType) :=
  match matchWhitespaceLen cs with
  | some n => some (n, TokenType.whitespace)
  | none =>
    match matchNumberLen cs with
    | some n => some (n, TokenType.number)
    | none =>
      match matchWordLen cs with
      | some n => some (n, TokenType.word)
      | none =>
        match matchPunctLen cs with
        | some n => some (n, TokenType.punctuation)
        | none => none

/-- The scanning loop of `tokenize`: at each position try the matchers in
order; on a match, flush any pending junk as an `other` token, emit the
matched token (a word downgraded to `other` when not regular), and continue
after it; otherwise move one character into the junk buffer.  Exactly as in
the source, junk still pending when the input ends is dropped (the line
marked `FIXME` there).  The fuel argument (called with the input length)
only forces termination: every step consumes at least one character
(`tryMatchers` never returns 0, see the `match…_pos` lemmas below), so fuel
never runs out. -/
def tokenizeAux : Nat → List Char → List Char → List Token
  | _, [], _ => []
  | 0, _ :: _, _ => []
  | fuel + 1, c :: rest, junk =>
    match tryMatchers (c :: rest) with
    | some (n, tt) =>
      let value : String := ⟨(c :: rest).take n⟩
      let tt' := if tt = TokenType.word ∧ ¬ is_regular_word value then TokenType.other else tt
      (if junk = [] then [] else [mkToken ⟨junk⟩ TokenType.other])
        ++ mkToken value tt' :: tokenizeAux fuel ((c :: rest).drop n) []
    | none => tokenizeAux fuel rest (junk ++ [c])

/-- `tokenize` from the source. -/
def tokenize (s : String) : List Token := tokenizeAux s.data.length s.data []

/-!
Contractions.  `apply_contractions` is embedded on tokens carrying a ghost
identity (`ITok`), mirroring Python's object identity, and additionally
records every match it performs (`CMatch`); the plain function is the
erasure of the instrumented one.  The ghost data never influences control
flow.
-/

/-- `ALL_CONTRACTIONS` from the source, in source order. -/
def ALL_CONTRACTIONS : List (String × String) :=
  [ ("aan het", "annut"),
    ("al een", "alle"),
    ("als een", "assun"),
    ("als er", "alstâh"),
    ("als u", "assu"),
    ("dacht het niet", "dachutnie"),
    ("dacht ik", "dachik"),
    ("dat ik", "dattik"),
    ("dat voor", "daffoâh"),
    ("doe je het", "doejenet"),
    ("en ik", "ennik"),
    ("had er", "hattâh"),
    ("heb ik", "heppik"),
    ("het wordt", "twogt"),
    ("ik dacht het niet", "ik dachutnie"),
    ("ik dacht het", "dachut"),
    ("in een", "innun"),
    ("in je", "ijje"),
    ("in me", "imme"),
    ("kan er", "kandâh"),
    ("ken ik", "kennik"),
    ("ken je hem", "kejjenem"),
    ("ken je", "kejje"),
    ("ken jij", "kejjè"),
    ("ken u", "kennu"),
    ("kijk dan", "kèktan"),
    ("laat hem", "latem"),
    ("mag het", "maggut"),
    ("mag ik", "maggik"),
    ("met een", "mettun"),
    ("met je", "mejje"),
    ("met me", "memme"),
    ("mij het", "mènnut"),
    ("niet dan", "niettan"),
    ("of er", "oftâh"),
    ("omdat ik", "omdattik"),
    ("op een", "oppun"),
    ("val ik", "vallik"),
    ("van het", "vannut"),
    ("van hetzelfde", "vannutzelfde"),
    ("van je", "vajje"),
    ("van jou", "vajjâh"),
    ("van mijn", "vamme"),
    ("vind je", "vijje"),
    ("voordat ik", "voordattik"),
    ("wat ben je", "wabbejje"),
    ("zal ik eens", "sallekes"),
    ("zal ik", "zallik"),
    ("zeg het", "zeggut") ]

/-- Python `str.split()` (no argument): split on whitespace runs,
discarding empty pieces; `acc` is the current piece, reversed. -/
def splitWordsAux : List Char → List Char → List (List Char)
  | [], acc => if acc = [] then [] else [acc.reverse]
  | c :: cs, acc =>
    if isSpaceChar c then
      if acc = [] then splitWordsAux cs [] else acc.reverse :: splitWordsAux cs []
    else splitWordsAux cs (c :: acc)

/-- `len(dutch.split())`, the word count a phrase is grouped under. -/
def wordCount (s : String) : Nat := (splitWordsAux s.data []).length

/-- `ALL_CONTRACTIONS_BY_SIZE[n]`: the contractions whose phrase has `n`
words, keeping source order (a Python dict preserves insertion order). -/
def contractionsOfSize (n : Nat) : List (String × String) :=
  ALL_CONTRACTIONS.filter fun p => wordCount p.1 = n

/-- The word counts occurring in the table, largest first: the iteration
order of `sorted(ALL_CONTRACTIONS_BY_SIZE.items(), reverse=True)`. -/
def contractionSizes : List Nat :=
  let maxSize := (ALL_CONTRACTIONS.map fun p => wordCount p.1).foldr max 0
  ((List.range (maxSize + 1)).reverse).filter fun n =>
    ALL_CONTRACTIONS.any fun p => wordCount p.1 = n

/-- The token-type character used by `make_token_type_string`. -/
def typeChar : TokenType → Char
  | TokenType.word => 'w'
  | TokenType.whitespace => ' '
  | TokenType.punctuation => ','
  | TokenType.number => '1'
  | TokenType.other => '_'
  | TokenType.translated => 't'

/-- A token with a ghost identity (Python object identity). -/
structure ITok where
  tok : Token
  id : Nat
deriving DecidableEq, Repr

/-- `make_token_type_string` over instrumented tokens. -/
def typeString (toks : List ITok) : List Char :=
  toks.map fun it => typeChar it.tok.type

/-- The regex text `"w w ... w"` (`size` words joined by single spaces). -/
def patList : Nat → List Char
  | 0 => []
  | 1 => ['w']
  | n + 2 => 'w' :: ' ' :: patList (n + 1)

/-- The lookahead `(?= |, )` at the position just after the pattern. -/
def contractionLookaheadOk : List Char → Bool
  | ' ' :: _ => true
  | ',' :: ' ' :: _ => true
  | _ => false

/-- The pattern `"w w ... w"(?= |, )` matches the type string at index `i`. -/
def patMatchAt (types : List Char) (size i : Nat) : Bool :=
  (types.drop i).take (2 * size - 1) = patList size
    && contractionLookaheadOk (types.drop (i + (2 * size - 1)))

/-- `pattern.search(types_str, pos)`: the least index `i ≥ pos` where the
pattern matches, if any. -/
def searchPat (types : List Char) (size pos : Nat) : Option Nat :=
  (List.range' pos (types.length + 1 - pos)).find? fun i => patMatchAt types size i

/-- `words_from_tokens` from the source: the first `n` word-token values
(lowercased) from index `offset` on, joined by single spaces. -/
def words_from_tokens (tokens : List Token) (offset n : Nat) : String :=
  String.intercalate " "
    ((((tokens.drop offset).filter fun t => t.type = TokenType.word).map
        fun t => t.value_lower).take n)

/-- One recorded contraction match: the consecutive tokens it consumed. -/
structure CMatch where
  constituents : List ITok
deriving DecidableEq, Repr

/-- The `while True` loop body of `apply_contractions` for one phrase
length, instrumented.  On a pattern match at `i`, the phrase is looked up;
a miss resumes the search at `i + 1`; a hit splices the matched range into
one freshly-identified `translated` token, records the match, and also
resumes at `i + 1` (the source sets `pos = m.start() + 1` before the
lookup).  The fuel argument (called with `toks.length + 1`, an upper bound
on the number of iterations, since `pos` strictly increases and the token
list never grows) only forces termination. -/
def contractLoop (contractions : List (String × String)) (size : Nat) :
    Nat → List ITok → Nat → Nat → List CMatch → List ITok × Nat × List CMatch
  | 0, toks, _, nextId, acc => (toks, nextId, acc)
  | fuel + 1, toks, pos, nextId, acc =>
    match searchPat (typeString toks) size pos with
    | none => (toks, nextId, acc)
    | some i =>
      let lookup := words_from_tokens (toks.map (fun it => it.tok)) i size
      match contractions.lookup lookup with
      | none => contractLoop contractions size fuel toks (i + 1) nextId acc
      | some replacement =>
        if replacement = "" then
          contractLoop contractions size fuel toks (i + 1) nextId acc
        else
          let caseOfFirst := ((toks.drop i).head?.map fun it => it.tok.case).getD none
          let replacement := recaseOpt replacement caseOfFirst
          let newTok : ITok := ⟨mkToken replacement TokenType.translated, nextId⟩
          let consumed := (toks.drop i).take (2 * size - 1)
          let toks' := toks.take i ++ newTok :: toks.drop (i + (2 * size - 1))
          contractLoop contractions size fuel toks' (i + 1) (nextId + 1)
            (acc ++ [⟨consumed⟩])

/-- Tag each token with its position offset by `i`: the ghost identities of
the input tokens. -/
def tagFrom (i : Nat) : List Token → List ITok
  | [] => []
  | t :: ts => ⟨t, i⟩ :: tagFrom (i + 1) ts

/-- The padded, tagged working state after all per-length passes: the token
list wrapped in the two synthetic whitespace tokens, the fresh-id counter
starting past the paddings, and every match recorded in order. -/
def applyContractionsCore (tokens : List Token) : List ITok × Nat × List CMatch :=
  contractionSizes.foldl
    (fun st size =>
      contractLoop (contractionsOfSize size) size (st.1.length + 1) st.1 0 st.2.1 st.2.2)
    (⟨WHITESPACE_TOKEN, tokens.length⟩
        :: (tagFrom 0 tokens ++ [⟨WHITESPACE_TOKEN, tokens.length + 1⟩]),
      tokens.length + 2, [])

/-- `apply_contractions`, instrumented: pad with the synthetic whitespace
tokens, run the per-length loop for each phrase length (longest first),
strip the padding, and return the final tokens with all recorded matches.
The real tokens carry ids `0, …, n-1`; the two padding tokens and every
token created by a splice carry fresh ids `≥ n`. -/
def applyContractionsI (tokens : List Token) : List ITok × List CMatch :=
  (((applyContractionsCore tokens).1.drop 1).dropLast, (applyContractionsCore tokens).2.2)

/-- `apply_contractions` from the source: the erasure of the instrumented
version.  (The two `assert`s on the padding tokens always hold: the loop
invariant proved below shows both paddings survive every pass.) -/
def apply_contractions (tokens : List Token) : List Token :=
  (applyContractionsI tokens).1.map fun it => it.tok

/-!
Syllables and the phonetic rule cascade.
-/

/-- `GEDEKTE_KLINKERS` after the `+=` extension in the source. -/
def GEDEKTE_KLINKERS : List String :=
  ["a", "e", "i", "o", "u", "ah", "è", "ë", "ï"]

/-- `VRIJE_KLINKERS` after the `+=` extension in the source. -/
def VRIJE_KLINKERS : List String :=
  ["aa", "ee", "ie", "oo", "uu", "eu", "oe", "é", "éé", "ée", "ü"]

/-- `ZUIVERE_TWEEKLANKEN` after the `+=` extension in the source. -/
def ZUIVERE_TWEEKLANKEN : List String :=
  ["ei", "ij", "ui", "ou", "au", "auw", "ouw"]

/-- `ONECHTE_TWEEKLANKEN` from the source. -/
def ONECHTE_TWEEKLANKEN : List String :=
  ["ai", "oi", "aai", "ooi", "oe", "eeuw", "ieuw"]

/-- Stable insertion of `x` after every element at least as long: together
with `stableSortByLenDesc` this reproduces Python's stable
`sorted(key=len, reverse=True)`. -/
def insertByLenDesc (x : String) : List String → List String
  | [] => [x]
  | y :: ys => if x.length ≤ y.length then y :: insertByLenDesc x ys else x :: y :: ys

def stableSortByLenDesc (l : List String) : List String :=
  l.foldl (fun acc x => insertByLenDesc x acc) []

/-- `VOWELS` from the source: all vowel spellings, longest first, ties in
list order. -/
def VOWELS : List String :=
  stableSortByLenDesc
    (ONECHTE_TWEEKLANKEN ++ ZUIVERE_TWEEKLANKEN ++ VRIJE_KLINKERS ++ GEDEKTE_KLINKERS)

/-- `CONSONANTS` from the source (defined there, unused by the engine). -/
def CONSONANTS : String := "bcçdfghjklmnpqrstvwxz"

/-- `value.partition(pat)` restricted to the first occurrence: `some
(before, after)` around the first occurrence of the nonempty `pat`, or
`none` when `pat` does not occur. -/
def breakOnFirst (pat : List Char) : List Char → Option (List Char × List Char)
  | [] => if pat = [] then some ([], []) else none
  | c :: cs =>
    if pat.isPrefixOf (c :: cs) then some ([], (c :: cs).drop pat.length)
    else (breakOnFirst pat cs).map fun p => (c :: p.1, p.2)

/-- The `for vowel in VOWELS` loop of `Syllable.__init__`: the first vowel
spelling occurring in `value` splits it as `(onset, nucleus, coda)`. -/
def findVowelSplit : List String → String → Option (String × String × String)
  | [], _ => none
  | v :: vs, value =>
    match breakOnFirst v.data value.data with
    | some p => some (⟨p.1⟩, v, ⟨p.2⟩)
    | none => findVowelSplit vs value

/-- The `Syllable` record of the source (the `previous`/`next` links are
represented positionally: the engine walks an indexed sequence and passes
the neighbours explicitly, see `translateWordLoop`). -/
structure Syllable where
  value : String
  onset : String
  rime : String
  nucleus : String
  coda : String
  «open» : Bool
  head : String
  tail : String
deriving DecidableEq, Repr

/-- `Syllable.__init__`: decompose `value` into onset/nucleus/coda using the
first matching vowel spelling; a syllable without one becomes a bare
nucleus. -/
def mkSyllable (value head tail : String) : Syllable :=
  let (onset, nucleus, coda) :=
    match findVowelSplit VOWELS value with
    | some t => t
    | none => ("", value, "")
  { value := value
    onset := onset
    rime := nucleus ++ coda
    nucleus := nucleus
    coda := coda
    «open» := coda = ""
    head := head
    tail := tail }

/-- `SYLLABLES` from the source. -/
def SYLLABLES : List (String × String) :=
  [("aan", "an"), ("flat", "flet"), ("wrap", "wrep")]

/-- String helpers mirroring Python's `startswith`/`endswith`/slicing. -/
def strStartsWith (s pat : String) : Bool := pat.data.isPrefixOf s.data

def strEndsWith (s pat : String) : Bool := pat.data.isSuffixOf s.data

def strDrop (s : String) (n : Nat) : String := ⟨s.data.drop n⟩

def strTake (s : String) (n : Nat) : String := ⟨s.data.take n⟩

/-- Python `s[:-1]`. -/
def strDropLast (s : String) : String := ⟨s.data.dropLast⟩

/-- Python `s.lstrip("r")`. -/
def strLstripR (s : String) : String := ⟨s.data.dropWhile fun c => c = 'r'⟩

def strLen (s : String) : Nat := s.data.length

/-- `translate_syllable` from the source: one cascade step; `previous` and
`next` are the neighbouring syllables of the word (Python's object links).
Returns the replacement text and the number of syllables consumed. -/
def translate_syllable (previous next : Option Syllable) (syl : Syllable) :
    String × Nat := Id.run do
  match SYLLABLES.lookup syl.value with
  | some translated => return (translated, 1)
  | none =>

  -- defaults serving as the starting point
  let mut onset := syl.onset
  let mut nucleus := syl.nucleus
  let mut coda := syl.coda

  -- jus
  if syl.value = "jus" then
    if strStartsWith syl.tail "t" then
      -- e.g. justitie (justisie)
      return ("jus", 1)
    else
      -- e.g. juskom (zjukom)
      return ("zju", 1)

  -- ei en ij worden è, behalve in -lijk/-lijkheid
  if syl.nucleus = "ei" ∨ syl.nucleus = "ij" then
    if (syl.value = "lijk" ∨ syl.value = "lijks")
        ∨ (syl.value = "lij" ∧ strStartsWith syl.tail "k") then
      if syl.head = "" then
        nucleus := "è"
      else if syl.head = "ge" then
        nucleus := "è"
      else if strEndsWith syl.head "insge" ∨ strEndsWith syl.head "isge"
          ∨ strEndsWith syl.head "onge" ∨ strEndsWith syl.head "rechts"
          ∨ strEndsWith syl.head "tege" ∨ strEndsWith syl.head "verge" then
        nucleus := "è"
      else
        pure ()
    else
      -- e.g. kijk (kèk), krijg (krèg)
      nucleus := "è"

  -- lange o wordt au, maar niet voor een -r.
  if syl.nucleus = "oo" ∧ ¬ strStartsWith syl.coda "r" then
    nucleus := "au"
  else if syl.nucleus = "o" ∧ syl.«open» then
    nucleus := "au"
  else if syl.nucleus = "ooi" ∨ syl.nucleus = "ooie" then  -- pyphen oddity
    nucleus := "au" ++ strDrop syl.nucleus 2

  -- au/ou wordt âh
  if syl.nucleus = "au" ∨ syl.nucleus = "auw" ∨ syl.nucleus = "ou" ∨ syl.nucleus = "ouw" then
    nucleus := "âh"
    if syl.value = "houd" then
      if previous.any fun p =>
          p.value = "be" ∨ p.value = "der" ∨ p.value = "huis"
            ∨ p.value = "in" ∨ p.value = "ont" then
        -- e.g. behoud (behâhd), inhoud (inhâhd).
        pure ()
      else
        -- e.g. houd (hâh), aanhoud (anhâh)
        coda := ""
  else if previous.any fun p => p.rime = "ou" then
    -- -oude- wordt meestal -âhwe-
    if syl.value = "de" then
      onset := "w"
    else if syl.value = "der" then
      onset := "w"
      nucleus := "âh"
      coda := ""
    else if syl.value = "den" then
      onset := "w"
      nucleus := "e"
      coda := ""

  -- ui wordt ùi
  if syl.nucleus = "ui" then
    nucleus := "ùi"

  -- eu wordt ui, behalve als een r volgt
  if syl.nucleus = "eu" ∧ ¬ strStartsWith syl.coda "r" then
    nucleus := "ui"

  -- lange e wordt ei
  if (syl.nucleus = "ee" ∨ syl.nucleus = "é" ∨ syl.nucleus = "éé" ∨ syl.nucleus = "ée")
      ∧ syl.rime ≠ "eer" then
    nucleus := "ei"

  -- -ua- wordt -uwa-
  if syl.value = "a" ∧ previous.any fun p => p.rime = "u" then
    -- e.g. situatie (situwasie)
    onset := "w"

  -- -isch wordt -ies, -ische wordt -iese
  if syl.rime = "isch" then
    return (syl.onset ++ "ies", 1)
  else if syl.rime = "i" ∧ next.any fun nx => nx.value = "sche" ∨ nx.value = "schen" then
    return (syl.onset ++ "iese", 2)

  -- -cie wordt -sie, -cieel wordt -sjeil
  if strStartsWith syl.value "cie" then
    return ("s" ++ strDrop syl.value 1, 1)
  else if syl.value = "ci" ∧ next.isSome then
    if next.any fun nx => nx.value = "ë" then
      -- e.g. officiële (offesjeile)
      return ("sjei", 2)
    else if next.any fun nx => nx.onset = "" then
      -- e.g. officieel (offesjeil)
      onset := "sj"
      nucleus := ""

  -- offi- wordt offe-
  if syl.value = "of" ∧ next.any fun nx => nx.value = "fi" then
    return ("offe", 2)

  -- uitgang -t na een andere medeklinker vervalt in de meeste gevallen
  if 2 ≤ strLen syl.coda ∧ strEndsWith syl.coda "t" then
    if syl.coda = "ct" then
      coda := "k"
    else if strStartsWith syl.coda "r" then
      pure ()  -- handled elsewhere
    else if syl.coda = "lt" ∨ syl.coda = "nt" then
      pure ()
    else if syl.rime = "angt" then
      coda := "nk"
    else
      coda := strDropLast syl.coda

  -- qua- wordt kwa-
  if syl.onset = "qu" then
    onset := "kw"

  -- va- wordt soms ve-
  if syl.value = "va" ∧ (strStartsWith syl.tail "kant" ∨ strStartsWith syl.tail "cant") then
    return ("ve", 1)

  -- c wordt vaak een k
  if syl.onset = "c" ∧ ¬ (strStartsWith syl.nucleus "i" ∨ strStartsWith syl.nucleus "e") then
    onset := "k"
  if syl.coda = "c" then
    coda := "k"

  -- -ti- en -tie worden -si- en -sie na een open lettergreep.
  if previous.any fun p => p.coda = "" then
    if syl.value = "ti" then
      onset := "s"
      nucleus := "i"
    else if syl.value = "tie" then
      onset := "s"
      nucleus := "ie"

  -- de r-codas
  if strStartsWith syl.coda "r" then
    let vowelMapped :=
      match syl.nucleus with
      | "e" => some "âh"
      | "ee" => some "eâh"
      | "eu" => some "euâh"
      | "ie" => some "ieâh"
      | "oo" => some "oâh"
      | "uu" => some "uâh"
      | _ => none
    if syl.rime = "ar" then
      nucleus := "âh"
      coda := ""
    else if syl.rime = "aar" then
      coda := "h"
    else if vowelMapped.isSome
        ∧ (syl.coda = "r" ∨ syl.coda = "rs" ∨ syl.coda = "rst"
            ∨ syl.coda = "rt" ∨ syl.coda = "rts") then
      nucleus := vowelMapped.getD nucleus
      coda := strLstripR syl.coda

  -- vloeiklank (l of r) gevolgd door een medeklinker
  if syl.rime = "urg" then
    coda := "rrag" ++ strDrop syl.coda 3
  else if (strStartsWith syl.coda "l" ∨ strStartsWith syl.coda "r") ∧ 1 < strLen syl.coda then
    if strStartsWith syl.coda "lf" ∨ strStartsWith syl.coda "lg"
        ∨ strStartsWith syl.coda "lk" ∨ strStartsWith syl.coda "lm"
        ∨ strStartsWith syl.coda "lp" ∨ strStartsWith syl.coda "rf"
        ∨ strStartsWith syl.coda "rg" ∨ strStartsWith syl.coda "rm"
        ∨ strStartsWith syl.coda "rn" ∨ strStartsWith syl.coda "rp" then
      -- e.g. volk (volluk), zorg (zorrug)
      coda := strTake syl.coda 1 ++ strTake syl.coda 1 ++ "u" ++ strDrop syl.coda 1
    else if strStartsWith syl.coda "rk" then
      -- e.g. sterkte (sterrekte)
      coda := strTake syl.coda 1 ++ strTake syl.coda 1 ++ "e" ++ strDrop syl.coda 1

  -- -md wordt -mp
  if syl.coda = "md" then
    coda := "mp"

  -- Suffixes (uitgangen)
  if syl.head ≠ "" then
    if syl.rime = "ens" then
      if syl.onset = "g" ∨ syl.onset = "k" ∨ syl.onset = "t" ∨ syl.onset = "v" then
        coda := "s"
      else if syl.onset = "d" ∧ ¬ (strEndsWith syl.head "ca" ∨ strEndsWith syl.head "ten") then
        coda := "s"
      else if syl.onset = "r" ∧ ¬ strEndsWith syl.head "fo" then
        coda := "s"
    else if syl.rime = "en" then
      coda := ""

  return (onset ++ nucleus ++ coda, 1)

/-- The boundary positions handed to `pairwise`: `0`, the backend's interior
split offsets, and the word length. -/
def boundaryPositions (positions : List Nat) (word : String) : List Nat :=
  0 :: (positions ++ [strLen word])

/-- One syllable per adjacent boundary pair, with `head`/`tail` the word
slices strictly outside its span (Python slicing clamps out-of-range
indices, as `List.take`/`List.drop` do). -/
def buildSyllables (word : String) : List Nat → List Syllable
  | start :: stop :: rest =>
    mkSyllable ⟨(word.data.drop start).take (stop - start)⟩
        ⟨word.data.take start⟩ ⟨word.data.drop stop⟩
      :: buildSyllables word (stop :: rest)
  | _ => []

/-- `split_into_syllables` from the source, with the hyphenation backend's
return value (`hyphenation_dictionary.positions(word)`) as an explicit
argument.  The `assert len(positions) == len(set(positions))` is modelled
by returning `none` (an `AssertionError`) when the combined boundary list
has a duplicate. -/
def split_into_syllables (positions : List Nat) (word : String) :
    Option (List Syllable) :=
  let ps := boundaryPositions positions word
  if ps.Nodup then some (buildSyllables word ps) else none

/-- Modelled from the spec: the external hyphenation collaborator (`pyphen`,
§6 of the spec — not part of this repository's sources) returns "an ordered
set of interior syllable-boundary character offsets" for a word.  The spec
treats the backend as opaque and fixes no per-word data; the end-to-end
scenarios of §8 (e.g. "Hallo" and "ROTTEN" passing through unchanged) are
consistent with the backend reporting no interior split points for the words
they exercise, so the model returns none. -/
def hyphenationPositions (_word : String) : List Nat := []

/-- The `while syllables:` loop of `translate_using_syllables`, walking the
original syllable sequence by index so that each syllable keeps its original
`previous`/`next` neighbours (index `i - 1` / `i + 1`), and advancing by the
consumption count.  Fuel (`arr.length` at the call) only forces termination:
every step consumes at least one syllable, and an exhausted fuel returns ""
exactly as the loop does once the sequence is empty. -/
def translateWordLoop (arr : List Syllable) : Nat → Nat → String
  | 0, _ => ""
  | fuel + 1, i =>
    match arr[i]? with
    | none => ""
    | some syl =>
      let previous := if i = 0 then none else arr[i - 1]?
      let next := arr[i + 1]?
      let (translated, n) := translate_syllable previous next syl
      translated ++ translateWordLoop arr fuel (i + n)

/-- `translate_using_syllables` from the source (`none` when the backend
contract assertion fires). -/
def translate_using_syllables (word : String) : Option String :=
  (split_into_syllables (hyphenationPositions word) word).map fun syllables =>
    translateWordLoop syllables syllables.length 0

/-- `WORDS` from the source. -/
def WORDS : List (String × String) :=
  [ ("aan", "an"),
    ("als", "as"),
    ("baby", "beibie"),
    ("een", "'n"),
    ("er", "'r"),
    ("even", "effe"),
    ("heeft", "heb"),
    ("het", "'t") ]

/-- `translate_single_word_token` from the source. -/
def translate_single_word_token (token : Token) : Option Token :=
  let translated : Option String :=
    match WORDS.lookup token.value_lower with
    | some t => some t
    | none => translate_using_syllables token.value_lower
  translated.map fun t => mkToken (recaseOpt t token.case) TokenType.word

/-- `apply_single_words` from the source. -/
def apply_single_words (tokens : List Token) : Option (List Token) :=
  tokens.mapM fun token =>
    if token.type = TokenType.word then translate_single_word_token token else some token

/-- Concatenation of all token values (`"".join(t.value for t in tokens)`). -/
def valuesConcat (tokens : List Token) : String :=
  tokens.foldr (fun t acc => t.value ++ acc) ""

/-- `translate` from the source: tokenize, fold contractions, translate the
remaining single words, and join. -/
def Haags.translate (s : String) : Option String :=
  (apply_single_words (apply_contractions (tokenize s))).map valuesConcat

/-!
Definitions used only to state the theorems below.
-/

/-- Concatenation of all syllable values. -/
def syllablesConcat (syllables : List Syllable) : String :=
  syllables.foldr (fun s acc => s.value ++ acc) ""

/-- The tokens following a phrase occurrence satisfy the resolver's
boundary lookahead `(?= |, )` once the padding whitespace is appended:
nothing, or a whitespace token, or a punctuation token followed by a
whitespace token or by the padding. -/
def boundaryOkAfter : List Token → Bool
  | [] => true
  | t :: rest =>
    match t.type, rest with
    | TokenType.whitespace, _ => true
    | TokenType.punctuation, [] => true
    | TokenType.punctuation, u :: _ => u.type = TokenType.whitespace
    | _, _ => false

/-- The ghost ids of all tokens consumed by the recorded matches. -/
def consumedIds (ms : List CMatch) : List Nat :=
  ms.flatMap fun m => m.constituents.map fun it => it.id

/-- The tokens of `tokens`, tagged with their positions as ghost ids (the
tagging used by `applyContractionsI`). -/
def tagTokens (tokens : List Token) : List ITok := tagFrom 0 tokens

/-- The word/whitespace token sequence of the phrase "ik dacht het niet"
(the registered four-word phrase of which the registered "ik dacht het" is
a prefix), with arbitrary word casing and whitespace values. -/
def idhnPhrase (w1 s1 w2 s2 w3 s3 w4 : Token) : List Token :=
  [w1, s1, w2, s2, w3, s3, w4]

/-- A token is a word token of the phrase word `v` when its type, and the
cached lowercase value the resolver looks up, agree with `v`. -/
def isPhraseWord (t : Token) (v : String) : Prop :=
  t.type = TokenType.word ∧ t.value_lower = v

/-- The loop invariant of the instrumented contraction resolver, relative
to a fixed reference list `orig` and the two padding tokens `fp`/`bp`:
working-list ids are distinct and below the fresh counter; recorded
constituents have ids below the counter, pairwise disjoint across matches,
disjoint from the working list, and are never `translated` tokens; the
reference tokens not yet consumed form a subsequence of the working list;
and the padding tokens still delimit the working list. -/
def ContractInv (orig : List ITok) (fp bp : ITok)
    (toks : List ITok) (nextId : Nat) (acc : List CMatch) : Prop :=
  (toks.map ITok.id).Nodup
    ∧ (∀ it ∈ toks, it.id < nextId)
    ∧ (∀ m ∈ acc, ∀ c ∈ m.constituents, c.id < nextId)
    ∧ List.Pairwise
        (fun m1 m2 => ∀ c1 ∈ m1.constituents, ∀ c2 ∈ m2.constituents, c1.id ≠ c2.id) acc
    ∧ (∀ m ∈ acc, ∀ c ∈ m.constituents, ∀ it ∈ toks, c.id ≠ it.id)
    ∧ (∀ m ∈ acc, ∀ c ∈ m.constituents, c.tok.type ≠ TokenType.translated)
    ∧ (orig.filter fun it => decide (it.id ∉ consumedIds acc)).Sublist toks
    ∧ toks.head? = some fp
    ∧ toks.getLast? = some bp

/-!
Theorems.  First the facts recorded about the matchers (they justify the
fuel bounds of `tokenizeAux`), then the claims.
-/

theorem matchWhitespaceLen_pos {cs : List Char} {n : Nat}
    (h : matchWhitespaceLen cs = some n) : 1 ≤ n := by
  simp only [matchWhitespaceLen] at h
  split at h
  · exact absurd h (by simp)
  · simp only [Option.some.injEq] at h
    omega

theorem matchPunctLen_pos {cs : List Char} {n : Nat}
    (h : matchPunctLen cs = some n) : 1 ≤ n := by
  simp only [matchPunctLen] at h
  split at h
  · exact absurd h (by simp)
  · simp only [Option.some.injEq] at h
    omega

theorem matchNumberLen_pos {cs : List Char} {n : Nat}
    (h : matchNumberLen cs = some n) : 1 ≤ n := by
  simp only [matchNumberLen] at h
  split at h
  · exact absurd h (by simp)
  · have hmem := List.mem_of_find?_eq_some h
    simp only [List.mem_flatMap, List.mem_map, List.mem_range] at hmem
    obtain ⟨a, ⟨idx, hidx, rfl⟩, t, _, rfl⟩ := hmem
    omega

theorem matchWordLen_pos {cs : List Char} {n : Nat}
    (h : matchWordLen cs = some n) : 1 ≤ n := by
  simp only [matchWordLen] at h
  split at h
  · have hmem := List.mem_of_find?_eq_some h
    simp only [List.mem_map, List.mem_range] at hmem
    obtain ⟨idx, hidx, rfl⟩ := hmem
    omega
  · split at h
    · split at h
      · simp only [Option.some.injEq] at h
        omega
      · exact absurd h (by simp)
    · exact absurd h (by simp)

theorem tryMatchers_pos {cs : List Char} {n : Nat} {tt : TokenType}
    (h : tryMatchers cs = some (n, tt)) : 1 ≤ n := by
  unfold tryMatchers at h
  split at h
  · rename_i n' heq
    simp only [Option.some.injEq, Prod.mk.injEq] at h
    exact h.1 ▸ matchWhitespaceLen_pos heq
  · split at h
    · rename_i n' heq
      simp only [Option.some.injEq, Prod.mk.injEq] at h
      exact h.1 ▸ matchNumberLen_pos heq
    · split at h
      · rename_i n' heq
        simp only [Option.some.injEq, Prod.mk.injEq] at h
        exact h.1 ▸ matchWordLen_pos heq
      · split at h
        · rename_i n' heq
          simp only [Option.some.injEq, Prod.mk.injEq] at h
          exact h.1 ▸ matchPunctLen_pos heq
        · exact absurd h (by simp)

/-! Supporting lemmas for the syllable-partition claims. -/

theorem mkSyllable_value (v h t : String) : (mkSyllable v h t).value = v := rfl

theorem chain'_head_le_getLastD {t : List Nat} {b : Nat}
    (h : List.Chain' (· < ·) (b :: t)) : b ≤ (b :: t).getLastD 0 := by
  induction t generalizing b with
  | nil => rw [List.getLastD_cons, List.getLastD_nil]
  | cons c t' ih =>
    rw [List.chain'_cons] at h
    have hc := ih h.2
    rw [List.getLastD_cons] at hc
    rw [List.getLastD_cons, List.getLastD_cons]
    omega

theorem buildSyllables_concat (word : String) :
    ∀ (bs : List Nat) (a : Nat), List.Chain' (· < ·) (a :: bs) →
      ((buildSyllables word (a :: bs)).foldr (fun s acc => s.value.data ++ acc) [])
        = (word.data.drop a).take ((a :: bs).getLastD 0 - a) := by
  intro bs
  induction bs with
  | nil =>
    intro a _
    simp [buildSyllables, List.getLastD_cons]
  | cons b t ih =>
    intro a hchain
    rw [List.chain'_cons] at hchain
    obtain ⟨hab, hbt⟩ := hchain
    have hble := chain'_head_le_getLastD hbt
    have ihb := ih b hbt
    simp only [buildSyllables, List.foldr_cons, mkSyllable_value] at ihb ⊢
    rw [ihb]
    simp only [List.getLastD_cons] at hble ⊢
    have h1 : word.data.drop b = (word.data.drop a).drop (b - a) := by
      rw [List.drop_drop]
      congr 1
      omega
    have h2 : t.getLastD b - a = (b - a) + (t.getLastD b - b) := by omega
    rw [h1, h2, List.take_add]

theorem syllablesConcat_data (ss : List Syllable) :
    (syllablesConcat ss).data = ss.foldr (fun s acc => s.value.data ++ acc) [] := by
  induction ss with
  | nil => rfl
  | cons s t ih =>
    simp only [syllablesConcat, List.foldr_cons] at ih ⊢
    rw [String.data_append, ih]

theorem getLastD_append_singleton (l : List Nat) (x : Nat) :
    (l ++ [x]).getLastD 0 = x := by
  rw [List.getLastD_eq_getLast?, List.getLast?_concat]
  rfl

/-- C5: for every nonempty word and every strictly increasing,
duplicate-free list of split offsets strictly inside the word's bounds,
`split_into_syllables` succeeds and the syllables cover the word exactly:
concatenating all syllable values in order yields the original word. -/
theorem split_into_syllables_partition (word : String) (positions : List Nat)
    (hword : 0 < strLen word)
    (hinc : List.Chain' (· < ·) positions)
    (hin : ∀ p ∈ positions, 0 < p ∧ p < strLen word) :
    ∃ syllables, split_into_syllables positions word = some syllables
      ∧ syllablesConcat syllables = word := by
  have hchain : List.Chain' (· < ·) (0 :: (positions ++ [strLen word])) := by
    rw [List.chain'_cons']
    constructor
    · intro y hy
      cases positions with
      | nil =>
        simp only [List.nil_append, List.head?_cons, Option.mem_def, Option.some.injEq] at hy
        omega
      | cons p t =>
        simp only [List.cons_append, List.head?_cons, Option.mem_def,
          Option.some.injEq] at hy
        have := hin p (by simp)
        omega
    · rw [List.chain'_append]
      refine ⟨hinc, List.chain'_singleton _, ?_⟩
      intro x hx y hy
      simp only [List.head?_cons, Option.mem_def, Option.some.injEq] at hy
      subst hy
      exact (hin x (List.mem_of_mem_getLast? hx)).2
  have hnodup : (boundaryPositions positions word).Nodup := by
    have hpw : List.Pairwise (· < ·) (0 :: (positions ++ [strLen word])) :=
      List.chain'_iff_pairwise.mp hchain
    exact (hpw.imp fun hlt => Nat.ne_of_lt hlt)
  refine ⟨buildSyllables word (boundaryPositions positions word), ?_, ?_⟩
  · simp only [split_into_syllables, if_pos hnodup]
  · apply String.ext
    have hc := buildSyllables_concat word (positions ++ [strLen word]) 0 hchain
    simp only [boundaryPositions]
    rw [syllablesConcat_data, hc, List.drop_zero, List.getLastD_cons,
      getLastD_append_singleton]
    simp [strLen, List.take_length]

/-- Witness for C5 at the word "lekker" with the single split offset 3. -/
theorem split_into_syllables_partition_witness :
    ∃ syllables, split_into_syllables [3] "lekker" = some syllables
      ∧ syllablesConcat syllables = "lekker" :=
  split_into_syllables_partition "lekker" [3] (by decide)
    (List.chain'_singleton 3) (by decide)

/-- C6 (counterexample to the claim as stated): the out-of-range offset 5
for the two-letter word "ab" is accepted without any consistency error —
the assertion only checks that the boundary list has no duplicates, and
`5 ∉ {0, 2}`. -/
theorem split_into_syllables_out_of_range_accepted :
    (split_into_syllables [5] "ab").isSome = true ∧ strLen "ab" < 5 := by
  decide

/-- C6 (amended): `split_into_syllables` fails with a consistency error
whenever the backend returns a duplicated offset, or an offset equal to
another boundary (`0` or the word length). -/
theorem split_into_syllables_duplicate_rejected (positions : List Nat) (word : String)
    (h : ¬ positions.Nodup ∨ 0 ∈ positions ∨ strLen word ∈ positions) :
    split_into_syllables positions word = none := by
  have hnot : ¬ (boundaryPositions positions word).Nodup := by
    intro hnd
    simp only [boundaryPositions, List.nodup_cons] at hnd
    obtain ⟨h0, hnd⟩ := hnd
    rw [List.nodup_append] at hnd
    rcases h with h | h | h
    · exact h hnd.1
    · exact h0 (List.mem_append_left _ h)
    · exact hnd.2.2 h (by simp)
  simp only [split_into_syllables, if_neg hnot]

/-- Witness for the amended C6 at the duplicated offset list `[1, 1]`. -/
theorem split_into_syllables_duplicate_rejected_witness :
    split_into_syllables [1, 1] "abc" = none :=
  split_into_syllables_duplicate_rejected [1, 1] "abc" (Or.inl (by decide))

/-- C1 (evaluation at the failing input): the tokenizer is not lossless.
A character no matcher recognizes (here `'('`, which is neither a word
character nor in `PUNCTUATION_CHARS`) accumulates in the junk buffer, and
pending junk is only emitted when a later matcher fires — at the end of
the input it is dropped, so `tokenize "("` yields no token at all and
`tokenize "abc("` loses the final character. -/
theorem tokenize_drops_trailing_junk :
    tokenize "(" = []
      ∧ tokenize "abc(" = [mkToken "abc" TokenType.word]
      ∧ valuesConcat (tokenize "abc(") ≠ "abc(" := by
  decide

set_option maxRecDepth 100000

/-- C2 (counterexample to the claimed output): the end-to-end translation
of "Hallo, ken ik jou? Ik dacht het niet." is not the spec's
"Hallo, kennik jou? Ik dachutnie." — the stand-alone word "jou" does not
survive: the syllable engine rewrites its nucleus "ou" to "âh", yielding
"jâh" (exactly as the repository's own test expects for "Ken ik jou?"). -/
theorem translate_hallo_claimed_output_wrong :
    Haags.translate "Hallo, ken ik jou? Ik dacht het niet."
      ≠ some "Hallo, kennik jou? Ik dachutnie." := by
  decide

/-- C2 (amended): the pipeline output, with the hyphenation collaborator
modelled as in `hyphenationPositions`: "ken ik" folds to "kennik",
"Ik dacht het niet" folds to "Ik dachutnie" (sentence case restored), and
"jou" becomes "jâh". -/
theorem translate_hallo_actual_output :
    Haags.translate "Hallo, ken ik jou? Ik dacht het niet."
      = some "Hallo, kennik jâh? Ik dachutnie." := by
  decide

/-- C7 (evaluation at the failing input): `NUMBER_RE`'s lookahead is
`(?!\w\s)` — a word character followed by a whitespace character — so on
"123abc" (word character 'a' followed by word character 'b') the lookahead
passes and the tokenizer does emit the number token "123", contradicting
the regex's own comment ("does not match \"123abc\""). -/
theorem tokenize_number_before_word_char :
    tokenize "123abc" = [mkToken "123" TokenType.number, mkToken "abc" TokenType.word]
      ∧ (mkToken "123" TokenType.number).type = TokenType.number := by
  decide

/-- C8 (counterexample to the claim as stated): the shorthand "'r" standing
as its own word is not classified `word`: `is_regular_word` whitelists only
"'t" and "'n", so the word match "'r" is downgraded to `other`. -/
theorem tokenize_apostrophe_r_not_word :
    (tokenize "'r").map (fun t => (t.value, t.type)) = [("'r", TokenType.other)] := by
  decide

/-- C8 (amended): of the three shorthand forms, "'n" and "'t" standing as
their own word are single `word` tokens; "'r" is matched by `WORD_RE` but
downgraded to `other` because `is_regular_word` does not whitelist it. -/
theorem tokenize_shorthand_words :
    tokenize "'n" = [mkToken "'n" TokenType.word]
      ∧ tokenize "'t" = [mkToken "'t" TokenType.word]
      ∧ tokenize "'r" = [mkToken "'r" TokenType.other]
      ∧ (mkToken "'n" TokenType.word).type = TokenType.word
      ∧ (mkToken "'t" TokenType.word).type = TokenType.word
      ∧ (mkToken "'r" TokenType.other).type ≠ TokenType.word := by
  decide

/-- C9: the ij/IJ digraph is treated as one casing unit by the case model:
"IJsland is mooi" is sentence case, "IJsland Title Case IJsland." is title
case, and retitling "ijsland" capitalizes the whole digraph. -/
theorem detect_case_recase_ij_digraph :
    detect_case "IJsland is mooi" = Case.sentence
      ∧ detect_case "IJsland Title Case IJsland." = Case.title
      ∧ recase "ijsland" Case.title = "IJsland" := by
  decide

/-! Supporting lemmas for the contraction-resolver claims. -/

theorem tagFrom_map_tok (l : List Token) : ∀ i, (tagFrom i l).map (fun it => it.tok) = l := by
  induction l with
  | nil => intro i; rfl
  | cons t ts ih => intro i; simp [tagFrom, ih]

theorem tagFrom_append (a b : List Token) :
    ∀ i, tagFrom i (a ++ b) = tagFrom i a ++ tagFrom (i + a.length) b := by
  induction a with
  | nil => intro i; simp [tagFrom]
  | cons t ts ih =>
    intro i
    simp only [List.cons_append, tagFrom, List.length_cons, List.append_eq]
    rw [ih (i + 1)]
    have harith : i + 1 + ts.length = i + (ts.length + 1) := by omega
    rw [harith]

theorem tagFrom_id_bounds {l : List Token} :
    ∀ {i : Nat}, ∀ it ∈ tagFrom i l, i ≤ it.id ∧ it.id < i + l.length := by
  induction l with
  | nil => intro i it h; simp [tagFrom] at h
  | cons t ts ih =>
    intro i it h
    simp only [tagFrom, List.mem_cons] at h
    rcases h with rfl | h
    · simp
    · have := ih it h
      simp only [List.length_cons]
      omega

theorem typeChar_ne_w {ty : TokenType} (h : ty ≠ TokenType.word) : typeChar ty ≠ 'w' := by
  cases ty <;> simp_all [typeChar]

theorem typeChar_whitespace : typeChar TokenType.whitespace = ' ' := rfl

theorem patList_cons_w {size : Nat} (h : 1 ≤ size) :
    ∃ rest, patList size = 'w' :: rest := by
  cases size with
  | zero => omega
  | succ n =>
    cases n with
    | zero => exact ⟨[], rfl⟩
    | succ m => exact ⟨' ' :: patList (m + 1), rfl⟩

theorem patMatchAt_head_w {types : List Char} {size i : Nat}
    (h : patMatchAt types size i = true) (hs : 1 ≤ size) :
    ∃ rest, types.drop i = 'w' :: rest := by
  simp only [patMatchAt, Bool.and_eq_true, decide_eq_true_eq] at h
  obtain ⟨rest0, hpl⟩ := patList_cons_w hs
  rw [hpl] at h
  have h1 := h.1
  rcases hd : types.drop i with _ | ⟨c, tl⟩
  · rw [hd] at h1
    simp at h1
  · rw [hd] at h1
    cases hn : 2 * size - 1 with
    | zero =>
      rw [hn] at h1
      simp at h1
    | succ k =>
      rw [hn, List.take_succ_cons] at h1
      simp only [List.cons.injEq] at h1
      exact ⟨tl, by rw [h1.1]⟩

theorem searchPat_none_of_no_w {types : List Char} {size pos : Nat}
    (h : ∀ c ∈ types, c ≠ 'w') (hs : 1 ≤ size) : searchPat types size pos = none := by
  rw [searchPat, List.find?_eq_none]
  intro i _ hpm
  obtain ⟨rest, hdrop⟩ := patMatchAt_head_w hpm hs
  have : 'w' ∈ types := by
    have : 'w' ∈ types.drop i := by rw [hdrop]; simp
    exact List.drop_subset i types this
  exact h 'w' this rfl

theorem no_w_of_no_word {toks : List ITok}
    (h : ∀ it ∈ toks, it.tok.type ≠ TokenType.word) :
    ∀ c ∈ typeString toks, c ≠ 'w' := by
  intro c hc
  simp only [typeString, List.mem_map] at hc
  obtain ⟨it, hit, rfl⟩ := hc
  exact typeChar_ne_w (h it hit)

theorem contractLoop_no_words {contractions : List (String × String)} {size : Nat}
    {toks : List ITok} {pos nextId : Nat} {acc : List CMatch}
    (h : ∀ it ∈ toks, it.tok.type ≠ TokenType.word) (hs : 1 ≤ size) :
    ∀ fuel, contractLoop contractions size fuel toks pos nextId acc = (toks, nextId, acc) := by
  intro fuel
  cases fuel with
  | zero => rfl
  | succ f =>
    simp only [contractLoop, searchPat_none_of_no_w (no_w_of_no_word h) hs]

theorem find?_range'_eq_some {p : Nat → Bool} {j : Nat} :
    ∀ {pos cnt : Nat}, pos ≤ j → j < pos + cnt →
      (∀ i, pos ≤ i → i < j → p i = false) → p j = true →
      (List.range' pos cnt).find? p = some j := by
  intro pos cnt
  induction cnt generalizing pos with
  | zero => intro h1 h2; omega
  | succ n ih =>
    intro h1 h2 hbelow hj
    rw [List.range'_succ, List.find?_cons]
    rcases Nat.eq_or_lt_of_le h1 with rfl | hlt
    · simp [hj]
    · rw [hbelow pos (Nat.le_refl pos) hlt]
      exact ih hlt (by omega) (fun i hi1 hi2 => hbelow i (by omega) hi2) hj

theorem typeString_append (a b : List ITok) :
    typeString (a ++ b) = typeString a ++ typeString b := by
  simp [typeString]

theorem typeString_length (a : List ITok) : (typeString a).length = a.length := by
  simp [typeString]

theorem typeString_cons (it : ITok) (l : List ITok) :
    typeString (it :: l) = typeChar it.tok.type :: typeString l := rfl

theorem contractLoop_size4_hit
    (P Q : List ITok) (a1 b1 a2 b2 a3 b3 a4 : ITok)
    (hP : ∀ it ∈ P, it.tok.type ≠ TokenType.word)
    (hQ : ∀ it ∈ Q, it.tok.type ≠ TokenType.word)
    (ha1t : a1.tok.type = TokenType.word) (ha1v : a1.tok.value_lower = "ik")
    (ha2t : a2.tok.type = TokenType.word) (ha2v : a2.tok.value_lower = "dacht")
    (ha3t : a3.tok.type = TokenType.word) (ha3v : a3.tok.value_lower = "het")
    (ha4t : a4.tok.type = TokenType.word) (ha4v : a4.tok.value_lower = "niet")
    (hb1 : b1.tok.type = TokenType.whitespace) (hb2 : b2.tok.type = TokenType.whitespace)
    (hb3 : b3.tok.type = TokenType.whitespace)
    (hla : contractionLookaheadOk (typeString Q) = true)
    (f nid : Nat) (acc : List CMatch) :
    contractLoop (contractionsOfSize 4) 4 (f + 2)
        (P ++ a1 :: b1 :: a2 :: b2 :: a3 :: b3 :: a4 :: Q) 0 nid acc
      = (P ++ (⟨mkToken (recaseOpt "ik dachutnie" a1.tok.case) TokenType.translated, nid⟩ : ITok)
            :: Q,
         nid + 1, acc ++ [⟨[a1, b1, a2, b2, a3, b3, a4]⟩]) := by
  have hTS : typeString (P ++ a1 :: b1 :: a2 :: b2 :: a3 :: b3 :: a4 :: Q)
      = typeString P ++ 'w' :: ' ' :: 'w' :: ' ' :: 'w' :: ' ' :: 'w' :: typeString Q := by
    rw [typeString_append]
    simp [typeString_cons, ha1t, ha2t, ha3t, ha4t, hb1, hb2, hb3, typeChar]
  have hlenP : (typeString P).length = P.length := typeString_length P
  have hdropP : (typeString (P ++ a1 :: b1 :: a2 :: b2 :: a3 :: b3 :: a4 :: Q)).drop P.length
      = 'w' :: ' ' :: 'w' :: ' ' :: 'w' :: ' ' :: 'w' :: typeString Q := by
    rw [hTS, ← hlenP, List.drop_left]
  have hdropP7 : (typeString (P ++ a1 :: b1 :: a2 :: b2 :: a3 :: b3 :: a4 :: Q)).drop
      (P.length + (2 * 4 - 1)) = typeString Q := by
    rw [hTS, ← hlenP, List.drop_append (2 * 4 - 1)]
    rfl
  have hat : patMatchAt (typeString (P ++ a1 :: b1 :: a2 :: b2 :: a3 :: b3 :: a4 :: Q))
      4 P.length = true := by
    simp only [patMatchAt, Bool.and_eq_true, decide_eq_true_eq]
    constructor
    · rw [hdropP]
      rfl
    · rw [hdropP7]
      exact hla
  have hbelow : ∀ i, 0 ≤ i → i < P.length →
      patMatchAt (typeString (P ++ a1 :: b1 :: a2 :: b2 :: a3 :: b3 :: a4 :: Q)) 4 i
        = false := by
    intro i _ hij
    cases hpm : patMatchAt (typeString (P ++ a1 :: b1 :: a2 :: b2 :: a3 :: b3 :: a4 :: Q)) 4 i with
    | false => rfl
    | true =>
      exfalso
      obtain ⟨rest, hdrop⟩ := patMatchAt_head_w hpm (by norm_num)
      have h0 : (typeString (P ++ a1 :: b1 :: a2 :: b2 :: a3 :: b3 :: a4 :: Q))[i]? = some 'w' := by
        have hge := List.getElem?_drop
          (typeString (P ++ a1 :: b1 :: a2 :: b2 :: a3 :: b3 :: a4 :: Q)) i 0
        rw [hdrop] at hge
        simpa using hge.symm
      rw [hTS, List.getElem?_append_left (by omega)] at h0
      simp only [typeString, List.getElem?_map] at h0
      rcases hPi : P[i]? with _ | it
      · rw [hPi] at h0
        simp at h0
      · rw [hPi] at h0
        simp only [Option.map_some', Option.some.injEq] at h0
        exact typeChar_ne_w (hP it (List.getElem?_mem hPi)) h0
  have hTlen : P.length
      < (typeString (P ++ a1 :: b1 :: a2 :: b2 :: a3 :: b3 :: a4 :: Q)).length + 1 - 0 := by
    rw [hTS]
    simp only [List.length_append, List.length_cons, hlenP]
    omega
  have hsearch : searchPat (typeString (P ++ a1 :: b1 :: a2 :: b2 :: a3 :: b3 :: a4 :: Q)) 4 0
      = some P.length := by
    rw [searchPat]
    exact find?_range'_eq_some (Nat.zero_le _) (by omega)
      (fun i h1 h2 => hbelow i h1 h2) hat
  have hwords : words_from_tokens
      ((P ++ a1 :: b1 :: a2 :: b2 :: a3 :: b3 :: a4 :: Q).map fun it => it.tok) P.length 4
      = "ik dacht het niet" := by
    rw [words_from_tokens, List.map_append]
    have hmaplen : P.length = (P.map fun it => it.tok).length := by simp
    rw [hmaplen, List.drop_left]
    have hfilterQ :
        (Q.map fun it => it.tok).filter (fun t => t.type = TokenType.word) = [] := by
      rw [List.filter_eq_nil_iff]
      intro t ht
      simp only [List.mem_map] at ht
      obtain ⟨it, hit, rfl⟩ := ht
      simpa using hQ it hit
    simp only [List.map_cons, List.filter_cons, ha1t, ha2t, ha3t, ha4t, hb1, hb2, hb3,
      hfilterQ]
    simp [ha1v, ha2v, ha3v, ha4v]
    decide
  have hlookup : (contractionsOfSize 4).lookup "ik dacht het niet"
      = some "ik dachutnie" := by decide
  have hdropPX : (P ++ a1 :: b1 :: a2 :: b2 :: a3 :: b3 :: a4 :: Q).drop P.length
      = a1 :: b1 :: a2 :: b2 :: a3 :: b3 :: a4 :: Q :=
    List.drop_left P _
  have htakeP : (P ++ a1 :: b1 :: a2 :: b2 :: a3 :: b3 :: a4 :: Q).take P.length = P :=
    List.take_left P _
  have hdropQ : (P ++ a1 :: b1 :: a2 :: b2 :: a3 :: b3 :: a4 :: Q).drop
      (P.length + (2 * 4 - 1)) = Q := by
    rw [List.drop_append (2 * 4 - 1)]
    rfl
  have hconsumed : (a1 :: b1 :: a2 :: b2 :: a3 :: b3 :: a4 :: Q).take (2 * 4 - 1)
      = [a1, b1, a2, b2, a3, b3, a4] := rfl
  simp only [contractLoop, hsearch, hwords, hlookup, hdropPX, htakeP, hdropQ, hconsumed,
    List.head?_cons, Option.map_some', Option.getD_some]
  have hne : ¬ (("ik dachutnie" : String) = "") := by decide
  rw [if_neg hne]
  have hnw : ∀ it ∈ P ++ (⟨mkToken (recaseOpt "ik dachutnie" a1.tok.case)
        TokenType.translated, nid⟩ : ITok) :: Q, it.tok.type ≠ TokenType.word := by
    intro it hit
    rcases List.mem_append.mp hit with h | h
    · exact hP it h
    · rcases List.mem_cons.mp h with rfl | h
      · simp [mkToken]
      · exact hQ it h
  have hsearch2 : searchPat (typeString (P ++ (⟨mkToken (recaseOpt "ik dachutnie"
        a1.tok.case) TokenType.translated, nid⟩ : ITok) :: Q)) 4 (P.length + 1) = none :=
    searchPat_none_of_no_w (no_w_of_no_word hnw) (by norm_num)
  rw [hsearch2]

theorem tagFrom_length (l : List Token) : ∀ i, (tagFrom i l).length = l.length := by
  induction l with
  | nil => intro i; rfl
  | cons t ts ih => intro i; simp [tagFrom, ih]

theorem tagFrom_mem_tok {l : List Token} {it : ITok} :
    ∀ {i : Nat}, it ∈ tagFrom i l → it.tok ∈ l := by
  intro i h
  have : it.tok ∈ (tagFrom i l).map (fun x => x.tok) := List.mem_map_of_mem _ h
  rwa [tagFrom_map_tok] at this

theorem boundary_lookahead (post : List Token) (hb : boundaryOkAfter post = true)
    (i : Nat) (padTok : ITok) (hpad : padTok.tok.type = TokenType.whitespace) :
    contractionLookaheadOk (typeString (tagFrom i post ++ [padTok])) = true := by
  cases post with
  | nil =>
    simp only [tagFrom, List.nil_append, typeString, List.map_cons, List.map_nil, hpad]
    rfl
  | cons t rest =>
    simp only [tagFrom, List.cons_append, typeString, List.map_cons]
    rcases ht : t.type with _ | _ | _ | _ | _ | _ <;>
      simp only [boundaryOkAfter, ht] at hb ⊢
    case whitespace => rfl
    case punctuation =>
      cases rest with
      | nil =>
        simp only [tagFrom, List.nil_append, List.map_cons, List.map_nil, hpad]
        rfl
      | cons u rest' =>
        simp only [decide_eq_true_eq] at hb
        simp only [tagFrom, List.cons_append, List.map_cons, hb]
        rfl
    all_goals exact absurd hb (by simp)

/-- C3 (amended): in a token sequence holding an occurrence of the
registered phrase "ik dacht het niet" — of which the registered phrase
"ik dacht het" is a prefix at the same position — surrounded by any
word-free context whose right boundary satisfies the resolver's lookahead
`(?= |, )`, `apply_contractions` replaces the occurrence by the longer
phrase's replacement "ik dachutnie" (recased to the first word's case),
never by the shorter phrase's replacement "dachut": phrase lengths are
processed longest-first and the spliced `translated` token no longer
matches the word pattern.  The boundary condition is essential: when the
longer phrase's lookahead fails the shorter prefix's replacement is
applied, see the counterexample below. -/
theorem apply_contractions_longest_phrase_wins
    (pre post : List Token) (w1 s1 w2 s2 w3 s3 w4 : Token)
    (hw1 : isPhraseWord w1 "ik") (hw2 : isPhraseWord w2 "dacht")
    (hw3 : isPhraseWord w3 "het") (hw4 : isPhraseWord w4 "niet")
    (hs1 : s1.type = TokenType.whitespace) (hs2 : s2.type = TokenType.whitespace)
    (hs3 : s3.type = TokenType.whitespace)
    (hpre : ∀ t ∈ pre, t.type ≠ TokenType.word)
    (hpost : ∀ t ∈ post, t.type ≠ TokenType.word)
    (hb : boundaryOkAfter post = true) :
    apply_contractions (pre ++ idhnPhrase w1 s1 w2 s2 w3 s3 w4 ++ post)
      = pre ++ mkToken (recaseOpt "ik dachutnie" w1.case) TokenType.translated :: post := by
  obtain ⟨hw1t, hw1v⟩ := hw1
  obtain ⟨hw2t, hw2v⟩ := hw2
  obtain ⟨hw3t, hw3v⟩ := hw3
  obtain ⟨hw4t, hw4v⟩ := hw4
  set tokens : List Token := pre ++ idhnPhrase w1 s1 w2 s2 w3 s3 w4 ++ post with htokens
  set n : Nat := tokens.length with hn
  set k : Nat := pre.length with hk
  -- the padded, tagged working list, split around the phrase
  set P : List ITok := ⟨WHITESPACE_TOKEN, n⟩ :: tagFrom 0 pre with hP
  set Q : List ITok := tagFrom (k + 7) post ++ [⟨WHITESPACE_TOKEN, n + 1⟩] with hQ
  have htag : tagFrom 0 tokens
      = tagFrom 0 pre ++ (⟨w1, k⟩ :: ⟨s1, k + 1⟩ :: ⟨w2, k + 2⟩ :: ⟨s2, k + 3⟩
          :: ⟨w3, k + 4⟩ :: ⟨s3, k + 5⟩ :: ⟨w4, k + 6⟩ :: tagFrom (k + 7) post) := by
    rw [htokens, tagFrom_append, tagFrom_append]
    simp only [tagFrom, idhnPhrase, List.length_append, List.length_cons, List.length_nil,
      List.cons_append, List.nil_append, List.append_assoc, hk]
    norm_num
  have hpadded : (⟨WHITESPACE_TOKEN, n⟩ : ITok) :: (tagFrom 0 tokens ++ [⟨WHITESPACE_TOKEN, n + 1⟩])
      = P ++ ⟨w1, k⟩ :: ⟨s1, k + 1⟩ :: ⟨w2, k + 2⟩ :: ⟨s2, k + 3⟩
          :: ⟨w3, k + 4⟩ :: ⟨s3, k + 5⟩ :: ⟨w4, k + 6⟩ :: Q := by
    rw [htag, hP, hQ]
    simp [List.append_assoc]
  have hPfree : ∀ it ∈ P, it.tok.type ≠ TokenType.word := by
    intro it hit
    rcases List.mem_cons.mp hit with rfl | h
    · simp [WHITESPACE_TOKEN, mkToken]
    · exact hpre it.tok (tagFrom_mem_tok h)
  have hQfree : ∀ it ∈ Q, it.tok.type ≠ TokenType.word := by
    intro it hit
    rcases List.mem_append.mp hit with h | h
    · exact hpost it.tok (tagFrom_mem_tok h)
    · rcases List.mem_singleton.mp h with rfl
      simp [WHITESPACE_TOKEN, mkToken]
  have hla : contractionLookaheadOk (typeString Q) = true :=
    boundary_lookahead post hb (k + 7) _ (by simp [WHITESPACE_TOKEN, mkToken])
  -- run the size-4 pass
  have hstep := contractLoop_size4_hit P Q ⟨w1, k⟩ ⟨s1, k + 1⟩ ⟨w2, k + 2⟩ ⟨s2, k + 3⟩
    ⟨w3, k + 4⟩ ⟨s3, k + 5⟩ ⟨w4, k + 6⟩ hPfree hQfree hw1t hw1v hw2t hw2v hw3t hw3v hw4t hw4v
    hs1 hs2 hs3 hla
  -- the spliced list is word-free, so the other passes do nothing
  have hnw : ∀ it ∈ P ++ (⟨mkToken (recaseOpt "ik dachutnie" w1.case)
        TokenType.translated, n + 2⟩ : ITok) :: Q, it.tok.type ≠ TokenType.word := by
    intro it hit
    rcases List.mem_append.mp hit with h | h
    · exact hPfree it h
    · rcases List.mem_cons.mp h with rfl | h
      · simp [mkToken]
      · exact hQfree it h
  -- assemble
  rw [apply_contractions, applyContractionsI, applyContractionsCore]
  simp only [← hn, hpadded]
  have hfuel : (P ++ ⟨w1, k⟩ :: ⟨s1, k + 1⟩ :: ⟨w2, k + 2⟩ :: ⟨s2, k + 3⟩
      :: ⟨w3, k + 4⟩ :: ⟨s3, k + 5⟩ :: ⟨w4, k + 6⟩ :: Q).length + 1
      = (P ++ ⟨w1, k⟩ :: ⟨s1, k + 1⟩ :: ⟨w2, k + 2⟩ :: ⟨s2, k + 3⟩
          :: ⟨w3, k + 4⟩ :: ⟨s3, k + 5⟩ :: ⟨w4, k + 6⟩ :: Q).length - 1 + 2 := by
    simp only [List.length_append, List.length_cons]
    omega
  have hsizes : contractionSizes = [4, 3, 2] := by decide
  rw [hsizes]
  simp only [List.foldl_cons, List.foldl_nil]
  rw [hfuel, hstep (((P ++ ⟨w1, k⟩ :: ⟨s1, k + 1⟩ :: ⟨w2, k + 2⟩ :: ⟨s2, k + 3⟩
      :: ⟨w3, k + 4⟩ :: ⟨s3, k + 5⟩ :: ⟨w4, k + 6⟩ :: Q).length - 1)) (n + 2) []]
  rw [contractLoop_no_words hnw (by norm_num), contractLoop_no_words hnw (by norm_num)]
  -- strip the padding and erase the ghost ids
  rw [hP]
  simp only [List.cons_append, List.drop_succ_cons, List.drop_zero]
  rw [hQ]
  have hsplit : tagFrom 0 pre ++ (⟨mkToken (recaseOpt "ik dachutnie" w1.case)
        TokenType.translated, n + 2⟩ : ITok) :: (tagFrom (k + 7) post ++ [⟨WHITESPACE_TOKEN, n + 1⟩])
      = (tagFrom 0 pre ++ ⟨mkToken (recaseOpt "ik dachutnie" w1.case)
          TokenType.translated, n + 2⟩ :: tagFrom (k + 7) post) ++ [⟨WHITESPACE_TOKEN, n + 1⟩] := by
    simp [List.append_assoc]
  rw [hsplit, List.dropLast_concat]
  simp only [List.map_append, List.map_cons, tagFrom_map_tok]

/-- Witness for C3: the bare phrase "ik dacht het niet" as a 7-token
sequence, with empty context. -/
theorem apply_contractions_longest_phrase_wins_witness :
    apply_contractions ([] ++ idhnPhrase (mkToken "ik" TokenType.word)
        (mkToken " " TokenType.whitespace) (mkToken "dacht" TokenType.word)
        (mkToken " " TokenType.whitespace) (mkToken "het" TokenType.word)
        (mkToken " " TokenType.whitespace) (mkToken "niet" TokenType.word) ++ [])
      = [] ++ mkToken (recaseOpt "ik dachutnie" (mkToken "ik" TokenType.word).case)
          TokenType.translated :: [] :=
  apply_contractions_longest_phrase_wins [] [] _ _ _ _ _ _ _
    ⟨by decide, by decide⟩ ⟨by decide, by decide⟩ ⟨by decide, by decide⟩
    ⟨by decide, by decide⟩ (by decide) (by decide) (by decide)
    (by simp) (by simp) (by decide)

/-- Counterexample to C3 as originally stated: the tokens of
"ik dacht het niet.x" contain the longer registered phrase
"ik dacht het niet" at position 0, but its boundary lookahead `(?= |, )`
fails there (the phrase is followed by ".x", not by a space or ", "), so
the longer phrase does not match and `apply_contractions` applies the
shorter prefix's replacement "dachut" — the output is not the longer
phrase's replacement. -/
theorem apply_contractions_shorter_phrase_wins_without_boundary :
    tokenize "ik dacht het niet.x"
      = idhnPhrase (mkToken "ik" TokenType.word) (mkToken " " TokenType.whitespace)
          (mkToken "dacht" TokenType.word) (mkToken " " TokenType.whitespace)
          (mkToken "het" TokenType.word) (mkToken " " TokenType.whitespace)
          (mkToken "niet" TokenType.word)
        ++ [mkToken "." TokenType.punctuation, mkToken "x" TokenType.word]
    ∧ apply_contractions (tokenize "ik dacht het niet.x")
        = [mkToken "dachut" TokenType.translated, mkToken " " TokenType.whitespace,
            mkToken "niet" TokenType.word, mkToken "." TokenType.punctuation,
            mkToken "x" TokenType.word]
    ∧ apply_contractions (tokenize "ik dacht het niet.x")
        ≠ [mkToken (recaseOpt "ik dachutnie" (mkToken "ik" TokenType.word).case)
              TokenType.translated,
            mkToken "." TokenType.punctuation, mkToken "x" TokenType.word] :=
  ⟨by decide, by decide, by decide⟩

/-! The contraction-resolver loop invariant (claims C4 and C10). -/

theorem getElem?_some_lt {α : Type} {l : List α} {i : Nat} {a : α}
    (h : l[i]? = some a) : i < l.length := by
  by_contra hc
  rw [List.getElem?_eq_none (by omega)] at h
  exact absurd h (by simp)

theorem getLast?_cons_of_ne_nil {α : Type} {a : α} {l : List α} (h : l ≠ []) :
    (a :: l).getLast? = l.getLast? := by
  cases l with
  | nil => exact absurd rfl h
  | cons b t => simp [List.getLast?_cons_cons]

theorem patMatchAt_getElem_w {types : List Char} {size i : Nat}
    (h : patMatchAt types size i = true) (hs : 1 ≤ size) : types[i]? = some 'w' := by
  obtain ⟨rest, hdrop⟩ := patMatchAt_head_w h hs
  have hge := List.getElem?_drop types i 0
  rw [hdrop] at hge
  simpa using hge.symm

theorem patList_chars {size : Nat} : ∀ c ∈ patList size, c = 'w' ∨ c = ' ' := by
  induction size using patList.induct with
  | case1 => intro c hc; simp [patList] at hc
  | case2 => intro c hc; simp [patList] at hc; simp [hc]
  | case3 n ih =>
    intro c hc
    rw [patList] at hc
    simp only [List.mem_cons] at hc
    rcases hc with rfl | rfl | hc
    · exact Or.inl rfl
    · exact Or.inr rfl
    · exact ih c hc

theorem contractInv_splice
    {orig : List ITok} {fp bp : ITok} (hfp : fp.tok.type = TokenType.whitespace)
    {toks : List ITok} {nid : Nat} {acc : List CMatch} {size i : Nat} (hsz : 1 ≤ size)
    (hpm : patMatchAt (typeString toks) size i = true)
    (hinv : ContractInv orig fp bp toks nid acc) (newTok : Token)
    (hnewT : newTok.type = TokenType.translated) :
    ContractInv orig fp bp
      (toks.take i ++ (⟨newTok, nid⟩ : ITok) :: toks.drop (i + (2 * size - 1)))
      (nid + 1) (acc ++ [⟨(toks.drop i).take (2 * size - 1)⟩]) := by
  obtain ⟨hA, hB, hC, hD, hE, hF, hG, hHh, hHl⟩ := hinv
  set T : List ITok := toks.take i with hT
  set S : List ITok := (toks.drop i).take (2 * size - 1) with hS
  set D : List ITok := toks.drop (i + (2 * size - 1)) with hDdef
  have htd : toks = T ++ (S ++ D) := by
    rw [hT, hS, hDdef]
    rw [← List.drop_drop]
    rw [List.take_append_drop, List.take_append_drop]
  -- basic position facts
  have hiw : (typeString toks)[i]? = some 'w' := patMatchAt_getElem_w hpm hsz
  have htypes0 : (typeString toks)[0]? = some ' ' := by
    rw [← List.head?_eq_getElem?, typeString, List.head?_map, hHh]
    simp [hfp, typeChar]
  have hi1 : 1 ≤ i := by
    rcases Nat.eq_zero_or_pos i with rfl | h
    · rw [htypes0] at hiw
      exact absurd hiw (by simp)
    · exact h
  have hilen : i < toks.length := by
    have := getElem?_some_lt hiw
    rwa [typeString_length] at this
  have htoksne : toks ≠ [] := by
    intro hnil
    rw [hnil] at hilen
    simp at hilen
  have hpm2 : List.take (2 * size - 1) (List.drop i (typeString toks)) = patList size
      ∧ contractionLookaheadOk (List.drop (i + (2 * size - 1)) (typeString toks)) = true := by
    simpa [patMatchAt] using hpm
  have hDne : D ≠ [] := by
    intro hnil
    have hlk := hpm2.2
    have heq : (typeString toks).drop (i + (2 * size - 1)) = typeString D := by
      rw [hDdef, typeString, typeString, List.map_drop]
    rw [heq, hnil] at hlk
    exact absurd hlk (by simp [typeString, contractionLookaheadOk])
  have hTne : T ≠ [] := by
    rw [hT]
    intro hnil
    have : (toks.take i).length = 0 := by rw [hnil]; rfl
    rw [List.length_take] at this
    omega
  have hThead : T.head? = some fp := by
    rw [hT, List.head?_take, if_neg (by omega), hHh]
  -- the slice's token types come from the pattern: word or whitespace
  have hStypes : typeString S = patList size := by
    rw [hS, typeString, List.map_take, List.map_drop]
    exact hpm2.1
  have hSsub : S ⊆ toks := fun x hx =>
    List.drop_subset i toks (List.take_subset _ _ hx)
  have hTsub : T ⊆ toks := List.take_subset i toks
  have hDsub : D ⊆ toks := List.drop_subset _ toks
  have hSnt : ∀ c ∈ S, c.tok.type ≠ TokenType.translated := by
    intro c hc hct
    have : typeChar c.tok.type ∈ typeString S := by
      rw [typeString]
      exact List.mem_map_of_mem _ hc
    rw [hStypes] at this
    rcases patList_chars _ this with h | h <;> rw [hct] at h <;> exact absurd h (by decide)
  -- id bookkeeping
  have hAsplit : ((T.map ITok.id ++ (S.map ITok.id ++ D.map ITok.id))).Nodup := by
    have := hA
    rw [htd] at this
    simpa [List.map_append] using this
  obtain ⟨hTnd, hSDnd, hTdis⟩ := List.nodup_append.mp hAsplit
  obtain ⟨hSnd, hDnd, hSdis⟩ := List.nodup_append.mp hSDnd
  refine ⟨?_, ?_, ?_, ?_, ?_, ?_, ?_, ?_, ?_⟩
  -- A: ids of the new working list are distinct
  · rw [List.map_append, List.map_cons, List.nodup_middle, List.nodup_cons]
    constructor
    · intro hmem
      rcases List.mem_append.mp hmem with h | h
      · obtain ⟨it, hit, hid⟩ := List.mem_map.mp h
        have hid2 : it.id = nid := hid
        have := hB it (hTsub hit)
        omega
      · obtain ⟨it, hit, hid⟩ := List.mem_map.mp h
        have hid2 : it.id = nid := hid
        have := hB it (hDsub hit)
        omega
    · rw [List.nodup_append]
      exact ⟨hTnd, hDnd, fun x hx hy => hTdis hx (List.mem_append_right _ hy)⟩
  -- B: ids below the fresh counter
  · intro it hit
    rcases List.mem_append.mp hit with h | h
    · exact Nat.lt_succ_of_lt (hB it (hTsub h))
    · rcases List.mem_cons.mp h with rfl | h
      · exact Nat.lt_succ_self nid
      · exact Nat.lt_succ_of_lt (hB it (hDsub h))
  -- C: constituent ids below the fresh counter
  · intro m hm c hc
    rcases List.mem_append.mp hm with h | h
    · exact Nat.lt_succ_of_lt (hC m h c hc)
    · rcases List.mem_singleton.mp h with rfl
      exact Nat.lt_succ_of_lt (hB c (hSsub hc))
  -- D: matches pairwise disjoint
  · rw [List.pairwise_append]
    refine ⟨hD, List.pairwise_singleton _ _, ?_⟩
    intro m1 hm1 m2 hm2 c1 hc1 c2 hc2
    rcases List.mem_singleton.mp hm2 with rfl
    exact hE m1 hm1 c1 hc1 c2 (hSsub hc2)
  -- E: constituents disjoint from the working list
  · intro m hm c hc it hit
    rcases List.mem_append.mp hm with h | h
    · rcases List.mem_append.mp hit with h' | h'
      · exact hE m h c hc it (hTsub h')
      · rcases List.mem_cons.mp h' with rfl | h'
        · exact fun heq => absurd (heq : c.id = nid) (Nat.ne_of_lt (hC m h c hc))
        · exact hE m h c hc it (hDsub h')
    · rcases List.mem_singleton.mp h with rfl
      rcases List.mem_append.mp hit with h' | h'
      · intro heq
        exact hTdis (List.mem_map_of_mem ITok.id h')
          (List.mem_append_left _ (heq ▸ List.mem_map_of_mem ITok.id hc))
      · rcases List.mem_cons.mp h' with rfl | h'
        · exact fun heq => absurd (heq : c.id = nid) (Nat.ne_of_lt (hB c (hSsub hc)))
        · intro heq
          exact hSdis (List.mem_map_of_mem ITok.id hc)
            (heq ▸ List.mem_map_of_mem ITok.id h')
  -- F: constituents are never translated tokens
  · intro m hm c hc
    rcases List.mem_append.mp hm with h | h
    · exact hF m h c hc
    · rcases List.mem_singleton.mp h with rfl
      exact hSnt c hc
  -- G: unconsumed reference tokens still form a subsequence
  · have hcons : consumedIds (acc ++ [⟨S⟩]) = consumedIds acc ++ S.map ITok.id := by
      simp [consumedIds, List.flatMap_append]
    have hsplitpred : (orig.filter fun it => decide (it.id ∉ consumedIds (acc ++ [⟨S⟩])))
        = (orig.filter fun it => decide (it.id ∉ consumedIds acc)).filter
            fun it => decide (it.id ∉ S.map ITok.id) := by
      rw [List.filter_filter]
      apply List.filter_congr
      intro x _
      rw [hcons]
      simp only [List.mem_append, not_or, Bool.decide_and, Bool.and_comm, decide_not]
    rw [hsplitpred]
    have h1 : ((orig.filter fun it => decide (it.id ∉ consumedIds acc)).filter
          fun it => decide (it.id ∉ S.map ITok.id)).Sublist
        (toks.filter fun it => decide (it.id ∉ S.map ITok.id)) :=
      List.Sublist.filter _ hG
    have h2 : (toks.filter fun it => decide (it.id ∉ S.map ITok.id))
        = (T.filter fun it => decide (it.id ∉ S.map ITok.id))
          ++ (D.filter fun it => decide (it.id ∉ S.map ITok.id)) := by
      conv_lhs => rw [htd]
      rw [List.filter_append, List.filter_append]
      have hSnil : (S.filter fun it => decide (it.id ∉ S.map ITok.id)) = [] := by
        rw [List.filter_eq_nil_iff]
        intro c hc
        simp [List.mem_map_of_mem ITok.id hc]
      rw [hSnil, List.nil_append]
    refine h1.trans ?_
    rw [h2]
    exact List.Sublist.append (List.filter_sublist T)
      ((List.filter_sublist D).trans (List.sublist_cons_self _ _))
  -- H: the front padding still heads the list
  · rw [List.head?_append_of_ne_nil T hTne, hThead]
  -- H: the back padding still ends the list
  · rw [List.getLast?_append_of_ne_nil _ (by simp : (⟨newTok, nid⟩ : ITok) :: D ≠ []),
      getLast?_cons_of_ne_nil hDne]
    conv_rhs => rw [← hHl]
    conv_rhs => rw [htd]
    rw [List.getLast?_append_of_ne_nil _ (by simp [hDne] : S ++ D ≠ [])]
    rw [List.getLast?_append_of_ne_nil _ hDne]

theorem contractLoop_inv {tbl : List (String × String)} {size : Nat} (hsz : 1 ≤ size)
    {orig : List ITok} {fp bp : ITok} (hfp : fp.tok.type = TokenType.whitespace) :
    ∀ (fuel : Nat) (toks : List ITok) (pos nid : Nat) (acc : List CMatch),
      ContractInv orig fp bp toks nid acc →
      ContractInv orig fp bp (contractLoop tbl size fuel toks pos nid acc).1
        (contractLoop tbl size fuel toks pos nid acc).2.1
        (contractLoop tbl size fuel toks pos nid acc).2.2 := by
  intro fuel
  induction fuel with
  | zero => intro toks pos nid acc hinv; exact hinv
  | succ f ih =>
    intro toks pos nid acc hinv
    rcases hs : searchPat (typeString toks) size pos with _ | i
    · simpa [contractLoop, hs] using hinv
    · have hpm : patMatchAt (typeString toks) size i = true := by
        have hs2 := hs
        rw [searchPat] at hs2
        have := List.find?_some hs2
        simpa using this
      rcases hl : tbl.lookup (words_from_tokens (toks.map fun it => it.tok) i size)
        with _ | r
      · simp only [contractLoop, hs, hl]
        exact ih toks (i + 1) nid acc hinv
      · by_cases hr : r = ""
        · simp only [contractLoop, hs, hl, if_pos hr]
          exact ih toks (i + 1) nid acc hinv
        · simp only [contractLoop, hs, hl, if_neg hr]
          exact ih _ (i + 1) (nid + 1) _
            (contractInv_splice hfp hsz hpm hinv _ rfl)

theorem foldl_contract_inv {orig : List ITok} {fp bp : ITok}
    (hfp : fp.tok.type = TokenType.whitespace) :
    ∀ (sizes : List Nat), (∀ s ∈ sizes, 1 ≤ s) →
      ∀ (st : List ITok × Nat × List CMatch), ContractInv orig fp bp st.1 st.2.1 st.2.2 →
      ContractInv orig fp bp
        (sizes.foldl (fun st size =>
          contractLoop (contractionsOfSize size) size (st.1.length + 1) st.1 0 st.2.1 st.2.2) st).1
        (sizes.foldl (fun st size =>
          contractLoop (contractionsOfSize size) size (st.1.length + 1) st.1 0 st.2.1 st.2.2) st).2.1
        (sizes.foldl (fun st size =>
          contractLoop (contractionsOfSize size) size (st.1.length + 1) st.1 0 st.2.1 st.2.2) st).2.2 := by
  intro sizes
  induction sizes with
  | nil => intro _ st hinv; exact hinv
  | cons s rest ih =>
    intro hall st hinv
    rw [List.foldl_cons]
    exact ih (fun x hx => hall x (List.mem_cons_of_mem s hx)) _
      (contractLoop_inv (hall s (List.mem_cons_self s rest)) hfp _ st.1 0 st.2.1 st.2.2 hinv)

theorem tagFrom_map_id (l : List Token) :
    ∀ i, (tagFrom i l).map ITok.id = List.range' i l.length := by
  induction l with
  | nil => intro i; rfl
  | cons t ts ih => intro i; simp [tagFrom, ih, List.range'_succ]

theorem applyContractionsI_inv (tokens : List Token) :
    ContractInv (tagFrom 0 tokens) ⟨WHITESPACE_TOKEN, tokens.length⟩
      ⟨WHITESPACE_TOKEN, tokens.length + 1⟩
      (applyContractionsCore tokens).1 (applyContractionsCore tokens).2.1
      (applyContractionsCore tokens).2.2 := by
  rw [applyContractionsCore]
  apply foldl_contract_inv (by simp [WHITESPACE_TOKEN, mkToken])
  · intro s hs
    rw [show contractionSizes = [4, 3, 2] from by decide] at hs
    simp only [List.mem_cons, List.not_mem_nil, or_false] at hs
    rcases hs with rfl | rfl | rfl <;> omega
  · set n : Nat := tokens.length with hn
    show ContractInv (tagFrom 0 tokens) ⟨WHITESPACE_TOKEN, n⟩ ⟨WHITESPACE_TOKEN, n + 1⟩
      ((⟨WHITESPACE_TOKEN, n⟩ : ITok) :: (tagFrom 0 tokens ++ [⟨WHITESPACE_TOKEN, n + 1⟩]))
      (n + 2) []
    refine ⟨?_, ?_, ?_, ?_, ?_, ?_, ?_, ?_, ?_⟩
    · simp only [List.map_cons, List.map_append, tagFrom_map_id, List.map_cons, List.map_nil]
      rw [List.nodup_cons, List.nodup_append]
      refine ⟨?_, List.nodup_range' 0 n, by simp, ?_⟩
      · intro hmem
        rcases List.mem_append.mp hmem with h | h
        · have := List.mem_range'.mp h
          omega
        · simp only [List.mem_singleton] at h
          omega
      · intro x hx hy
        have := List.mem_range'.mp hx
        simp only [List.mem_singleton] at hy
        omega
    · intro it hit
      rcases List.mem_cons.mp hit with rfl | h
      · show n < n + 2
        omega
      · rcases List.mem_append.mp h with h | h
        · have := tagFrom_id_bounds it h
          omega
        · rcases List.mem_singleton.mp h with rfl
          show n + 1 < n + 2
          omega
    · intro m hm; simp at hm
    · exact List.Pairwise.nil
    · intro m hm; simp at hm
    · intro m hm; simp at hm
    · have hfil : (tagFrom 0 tokens).filter
          (fun it => decide (it.id ∉ consumedIds ([] : List CMatch))) = tagFrom 0 tokens := by
        apply List.filter_eq_self.mpr
        intro a _
        simp [consumedIds]
      rw [hfil]
      exact (List.sublist_append_left _ _).cons _
    · rfl
    · rw [show (⟨WHITESPACE_TOKEN, n⟩ : ITok)
          :: (tagFrom 0 tokens ++ [⟨WHITESPACE_TOKEN, n + 1⟩])
          = ((⟨WHITESPACE_TOKEN, n⟩ : ITok) :: tagFrom 0 tokens)
            ++ [⟨WHITESPACE_TOKEN, n + 1⟩] from rfl]
      exact List.getLast?_concat _

theorem sublist_of_cons_not_mem {α : Type} {xs ys : List α} {y : α}
    (h : xs.Sublist (y :: ys)) (hy : y ∉ xs) : xs.Sublist ys := by
  cases h with
  | cons _ h => exact h
  | cons₂ => exact absurd (List.mem_cons_self _ _) hy

theorem sublist_of_concat_not_mem {α : Type} {xs ys : List α} {y : α}
    (h : xs.Sublist (ys ++ [y])) (hy : y ∉ xs) : xs.Sublist ys := by
  have hr : xs.reverse.Sublist (y :: ys.reverse) := by
    have h2 := List.reverse_sublist.mpr h
    simpa using h2
  have h3 := sublist_of_cons_not_mem hr (by simpa using hy)
  exact List.reverse_sublist.mp h3

theorem sublist_drop_dropLast {α : Type} {xs l : List α} {a b : α}
    (h : xs.Sublist l) (ha : l.head? = some a) (hb : l.getLast? = some b)
    (hxa : a ∉ xs) (hxb : b ∉ xs) (hab : a ≠ b) :
    xs.Sublist ((l.drop 1).dropLast) := by
  rcases l with _ | ⟨x, tail⟩
  · exact absurd ha (by simp)
  · simp only [List.head?_cons, Option.some.injEq] at ha
    subst ha
    simp only [List.drop_succ_cons, List.drop_zero]
    have h1 := sublist_of_cons_not_mem h hxa
    have htne : tail ≠ [] := by
      intro ht
      subst ht
      simp only [List.getLast?_singleton, Option.some.injEq] at hb
      exact hab hb
    have hb2 : tail.getLast? = some b := by
      rw [← getLast?_cons_of_ne_nil htne]
      exact hb
    have hdrop : tail.dropLast ++ [b] = tail := List.dropLast_append_getLast? _ hb2
    exact sublist_of_concat_not_mem (by rw [hdrop]; exact h1) hxb

set_option maxHeartbeats 2000000 in
/-- The reference tokens not consumed by any recorded match survive the
resolver: they form a subsequence of the resolver's (padding-stripped)
output. -/
theorem survivors_sublist (tokens : List Token) :
    ((tagFrom 0 tokens).filter fun it =>
        decide (it.id ∉ consumedIds (applyContractionsI tokens).2)).Sublist
      (applyContractionsI tokens).1 := by
  have hinv := applyContractionsI_inv tokens
  rw [ContractInv] at hinv
  obtain ⟨-, -, -, -, -, -, hG, hHead, hLast⟩ := hinv
  have hbound : ∀ it ∈ (tagFrom 0 tokens).filter fun it =>
        decide (it.id ∉ consumedIds ((applyContractionsCore tokens).2.2)),
      it.id < tokens.length := by
    intro it hit
    have h2 := (tagFrom_id_bounds it (List.mem_of_mem_filter hit)).2
    omega
  have hfp : (⟨WHITESPACE_TOKEN, tokens.length⟩ : ITok)
      ∉ (tagFrom 0 tokens).filter fun it =>
        decide (it.id ∉ consumedIds ((applyContractionsCore tokens).2.2)) := by
    intro hmem
    have h2 : tokens.length < tokens.length := hbound _ hmem
    omega
  have hbp : (⟨WHITESPACE_TOKEN, tokens.length + 1⟩ : ITok)
      ∉ (tagFrom 0 tokens).filter fun it =>
        decide (it.id ∉ consumedIds ((applyContractionsCore tokens).2.2)) := by
    intro hmem
    have h2 : tokens.length + 1 < tokens.length := hbound _ hmem
    omega
  have hab : (⟨WHITESPACE_TOKEN, tokens.length⟩ : ITok)
      ≠ ⟨WHITESPACE_TOKEN, tokens.length + 1⟩ := by
    intro h
    have hid : tokens.length = tokens.length + 1 := congrArg ITok.id h
    omega
  exact sublist_drop_dropLast hG hHead hLast hfp hbp hab

/-- The single-word pass maps non-word tokens to themselves, so the
non-word tokens of its input form a subsequence of its output. -/
theorem apply_single_words_keeps_nonwords (l : List Token) :
    ∀ out, apply_single_words l = some out →
      (l.filter fun t => decide (t.type ≠ TokenType.word)).Sublist out := by
  induction l with
  | nil =>
    intro out h
    rw [apply_single_words, List.mapM_nil] at h
    cases h
    simp
  | cons t rest ih =>
    intro out h
    rw [apply_single_words, List.mapM_cons] at h
    rcases hft : (if t.type = TokenType.word then translate_single_word_token t
        else some t) with _ | t'
    · rw [hft] at h
      simp at h
    · rcases hrest : rest.mapM (fun token => if token.type = TokenType.word
          then translate_single_word_token token else some token) with _ | out'
      · rw [hft, hrest] at h
        simp at h
      · rw [hft, hrest] at h
        simp at h
        subst h
        have hrest2 : apply_single_words rest = some out' := by
          rw [apply_single_words]
          exact hrest
        have hsub := ih out' hrest2
        by_cases hw : t.type = TokenType.word
        · rw [List.filter_cons_of_neg (by simp [hw])]
          exact hsub.cons t'
        · rw [if_neg hw] at hft
          have heq : t = t' := by injection hft
          subst heq
          rw [List.filter_cons_of_pos (by simp [hw])]
          exact hsub.cons₂ t

/-- C4: the phrase replacements performed by `apply_contractions` never
overlap: over every input token sequence, the matches recorded by the
instrumented resolver consume pairwise disjoint tokens (their constituent
ghost ids are pairwise distinct), and no constituent of any match is a
`translated` token — a token produced by one match is never itself a
constituent of a later match. -/
theorem apply_contractions_matches_disjoint (tokens : List Token) :
    List.Pairwise
      (fun m1 m2 => ∀ c1 ∈ m1.constituents, ∀ c2 ∈ m2.constituents, c1.id ≠ c2.id)
      (applyContractionsI tokens).2
    ∧ ∀ m ∈ (applyContractionsI tokens).2, ∀ c ∈ m.constituents,
        c.tok.type ≠ TokenType.translated := by
  have h := applyContractionsI_inv tokens
  rw [ContractInv] at h
  exact ⟨h.2.2.2.1, h.2.2.2.2.2.1⟩

/-- C10: frame preservation. For every input string on which the pipeline
succeeds, `translate` returns the concatenation of the final token list
`out`, and every token of the original tokenization that is not a word
token and is not consumed by any contraction match appears in `out`
unchanged (same value, type and case) and in its original relative
order. -/
theorem translate_preserves_unconsumed_nonword_tokens (s : String) (out : List Token)
    (hout : apply_single_words (apply_contractions (tokenize s)) = some out) :
    Haags.translate s = some (valuesConcat out)
    ∧ (((tagTokens (tokenize s)).filter fun it =>
          decide (it.tok.type ≠ TokenType.word)
            && decide (it.id ∉ consumedIds (applyContractionsI (tokenize s)).2)).map
        (fun it => it.tok)).Sublist out := by
  constructor
  · rw [Haags.translate, hout]
    rfl
  · have h1 := survivors_sublist (tokenize s)
    have h2 := h1.filter fun it => decide (it.tok.type ≠ TokenType.word)
    rw [List.filter_filter] at h2
    have h3 := h2.map fun it => it.tok
    have h4 : (((applyContractionsI (tokenize s)).1.filter fun it =>
        decide (it.tok.type ≠ TokenType.word)).map fun it => it.tok)
        = (apply_contractions (tokenize s)).filter fun t =>
            decide (t.type ≠ TokenType.word) := by
      rw [apply_contractions, List.filter_map]
      rfl
    rw [h4] at h3
    have h5 := apply_single_words_keeps_nonwords _ out hout
    rw [tagTokens]
    exact h3.trans h5

/-- Witness for C10 at the input "3, ": the single-word pass succeeds, and
the number, punctuation and whitespace tokens all survive unchanged. -/
theorem translate_preserves_unconsumed_nonword_tokens_witness :
    apply_single_words (apply_contractions (tokenize "3, ")) =
        some [mkToken "3" TokenType.number, mkToken "," TokenType.punctuation,
          mkToken " " TokenType.whitespace]
    ∧ (Haags.translate "3, " = some (valuesConcat [mkToken "3" TokenType.number,
          mkToken "," TokenType.punctuation, mkToken " " TokenType.whitespace])
      ∧ (((tagTokens (tokenize "3, ")).filter fun it =>
            decide (it.tok.type ≠ TokenType.word)
              && decide (it.id ∉ consumedIds (applyContractionsI (tokenize "3, ")).2)).map
          (fun it => it.tok)).Sublist [mkToken "3" TokenType.number,
            mkToken "," TokenType.punctuation, mkToken " " TokenType.whitespace]) :=
  ⟨by decide, translate_preserves_unconsumed_nonword_tokens "3, " _ (by decide)⟩
